import Mathlib

/-!
# Verification of the pico8-to-lua rewriting core

This development embeds the Rust sources of `pico8-to-lua` (`src/lib.rs` and
`src/bin/pico8-to-lua.rs`) as executable Lean definitions over `List Char` and
proves properties of the rewriting pipeline.

The library applies seven regular-expression driven passes to a Pico-8 Lua
source text (`patch_lua`), resolves `#include` directives
(`try_patch_includes`, `patch_includes`, `find_includes`), and the binary
unwraps/rewraps a `.p8` cartridge envelope.

Each regex of the source is translated here into a deterministic scanner that
follows the leftmost-first matching discipline of the Rust `regex` crate
(greedy repetition with backtracking priority, lazy repetition taking the
shortest extension, alternatives tried left to right, non-overlapping
successive matches that never re-scan replacement text, and an empty-match
never occurring for these patterns).  Character classes follow the crate's
Unicode definitions; the word-character class `\w` used for the boundary
`\b` is the Unicode word class (see `wordRanges`).
-/

namespace Pico8

/-- Unicode white space, as matched by the regex class `\s` and by Rust's
`char::is_whitespace` (the `White_Space` property), on code points. -/
def rustWsN (n : Nat) : Bool :=
  (9 ≤ n && n ≤ 13) || n == 32 || n == 0x85 || n == 0xA0 || n == 0x1680 ||
  (0x2000 ≤ n && n ≤ 0x200A) || n == 0x2028 || n == 0x2029 || n == 0x202F ||
  n == 0x205F || n == 0x3000

/-- Unicode white space on characters: see `rustWsN`. -/
def rustWs (c : Char) : Bool :=
  rustWsN c.toNat

/-- ASCII alphanumeric, the regex POSIX class `[:alnum:]`. -/
def asciiAlnum (c : Char) : Bool :=
  let n := c.toNat
  (48 ≤ n && n ≤ 57) || (65 ≤ n && n ≤ 90) || (97 ≤ n && n ≤ 122)

/-- The code-point ranges of the Unicode word-character class `\w` used by
the regex crate's default (Unicode) word boundary `\b`:
Alphabetic ∪ Mark ∪ Decimal_Number ∪ Connector_Punctuation ∪
Join_Control.  The table is generated from the Unicode Character Database
(version 14.0.0) as the union of the general categories L, Nl, M, Nd and Pc,
the two Join_Control code points U+200C and U+200D, and the circled letters
U+24B6..U+24E9 (the Other_Alphabetic entries that fall outside those
categories). -/
def wordRanges : List (Nat × Nat) := [
  (48, 57), (65, 90), (95, 95), (97, 122), (170, 170), (181, 181),
  (186, 186), (192, 214), (216, 246), (248, 705), (710, 721), (736, 740),
  (748, 748), (750, 750), (768, 884), (886, 887), (890, 893), (895, 895),
  (902, 902), (904, 906), (908, 908), (910, 929), (931, 1013), (1015, 1153),
  (1155, 1327), (1329, 1366), (1369, 1369), (1376, 1416), (1425, 1469), (1471, 1471),
  (1473, 1474), (1476, 1477), (1479, 1479), (1488, 1514), (1519, 1522), (1552, 1562),
  (1568, 1641), (1646, 1747), (1749, 1756), (1759, 1768), (1770, 1788), (1791, 1791),
  (1808, 1866), (1869, 1969), (1984, 2037), (2042, 2042), (2045, 2045), (2048, 2093),
  (2112, 2139), (2144, 2154), (2160, 2183), (2185, 2190), (2200, 2273), (2275, 2403),
  (2406, 2415), (2417, 2435), (2437, 2444), (2447, 2448), (2451, 2472), (2474, 2480),
  (2482, 2482), (2486, 2489), (2492, 2500), (2503, 2504), (2507, 2510), (2519, 2519),
  (2524, 2525), (2527, 2531), (2534, 2545), (2556, 2556), (2558, 2558), (2561, 2563),
  (2565, 2570), (2575, 2576), (2579, 2600), (2602, 2608), (2610, 2611), (2613, 2614),
  (2616, 2617), (2620, 2620), (2622, 2626), (2631, 2632), (2635, 2637), (2641, 2641),
  (2649, 2652), (2654, 2654), (2662, 2677), (2689, 2691), (2693, 2701), (2703, 2705),
  (2707, 2728), (2730, 2736), (2738, 2739), (2741, 2745), (2748, 2757), (2759, 2761),
  (2763, 2765), (2768, 2768), (2784, 2787), (2790, 2799), (2809, 2815), (2817, 2819),
  (2821, 2828), (2831, 2832), (2835, 2856), (2858, 2864), (2866, 2867), (2869, 2873),
  (2876, 2884), (2887, 2888), (2891, 2893), (2901, 2903), (2908, 2909), (2911, 2915),
  (2918, 2927), (2929, 2929), (2946, 2947), (2949, 2954), (2958, 2960), (2962, 2965),
  (2969, 2970), (2972, 2972), (2974, 2975), (2979, 2980), (2984, 2986), (2990, 3001),
  (3006, 3010), (3014, 3016), (3018, 3021), (3024, 3024), (3031, 3031), (3046, 3055),
  (3072, 3084), (3086, 3088), (3090, 3112), (3114, 3129), (3132, 3140), (3142, 3144),
  (3146, 3149), (3157, 3158), (3160, 3162), (3165, 3165), (3168, 3171), (3174, 3183),
  (3200, 3203), (3205, 3212), (3214, 3216), (3218, 3240), (3242, 3251), (3253, 3257),
  (3260, 3268), (3270, 3272), (3274, 3277), (3285, 3286), (3293, 3294), (3296, 3299),
  (3302, 3311), (3313, 3314), (3328, 3340), (3342, 3344), (3346, 3396), (3398, 3400),
  (3402, 3406), (3412, 3415), (3423, 3427), (3430, 3439), (3450, 3455), (3457, 3459),
  (3461, 3478), (3482, 3505), (3507, 3515), (3517, 3517), (3520, 3526), (3530, 3530),
  (3535, 3540), (3542, 3542), (3544, 3551), (3558, 3567), (3570, 3571), (3585, 3642),
  (3648, 3662), (3664, 3673), (3713, 3714), (3716, 3716), (3718, 3722), (3724, 3747),
  (3749, 3749), (3751, 3773), (3776, 3780), (3782, 3782), (3784, 3789), (3792, 3801),
  (3804, 3807), (3840, 3840), (3864, 3865), (3872, 3881), (3893, 3893), (3895, 3895),
  (3897, 3897), (3902, 3911), (3913, 3948), (3953, 3972), (3974, 3991), (3993, 4028),
  (4038, 4038), (4096, 4169), (4176, 4253), (4256, 4293), (4295, 4295), (4301, 4301),
  (4304, 4346), (4348, 4680), (4682, 4685), (4688, 4694), (4696, 4696), (4698, 4701),
  (4704, 4744), (4746, 4749), (4752, 4784), (4786, 4789), (4792, 4798), (4800, 4800),
  (4802, 4805), (4808, 4822), (4824, 4880), (4882, 4885), (4888, 4954), (4957, 4959),
  (4992, 5007), (5024, 5109), (5112, 5117), (5121, 5740), (5743, 5759), (5761, 5786),
  (5792, 5866), (5870, 5880), (5888, 5909), (5919, 5940), (5952, 5971), (5984, 5996),
  (5998, 6000), (6002, 6003), (6016, 6099), (6103, 6103), (6108, 6109), (6112, 6121),
  (6155, 6157), (6159, 6169), (6176, 6264), (6272, 6314), (6320, 6389), (6400, 6430),
  (6432, 6443), (6448, 6459), (6470, 6509), (6512, 6516), (6528, 6571), (6576, 6601),
  (6608, 6617), (6656, 6683), (6688, 6750), (6752, 6780), (6783, 6793), (6800, 6809),
  (6823, 6823), (6832, 6862), (6912, 6988), (6992, 7001), (7019, 7027), (7040, 7155),
  (7168, 7223), (7232, 7241), (7245, 7293), (7296, 7304), (7312, 7354), (7357, 7359),
  (7376, 7378), (7380, 7418), (7424, 7957), (7960, 7965), (7968, 8005), (8008, 8013),
  (8016, 8023), (8025, 8025), (8027, 8027), (8029, 8029), (8031, 8061), (8064, 8116),
  (8118, 8124), (8126, 8126), (8130, 8132), (8134, 8140), (8144, 8147), (8150, 8155),
  (8160, 8172), (8178, 8180), (8182, 8188), (8204, 8205), (8255, 8256), (8276, 8276),
  (8305, 8305), (8319, 8319), (8336, 8348), (8400, 8432), (8450, 8450), (8455, 8455),
  (8458, 8467), (8469, 8469), (8473, 8477), (8484, 8484), (8486, 8486), (8488, 8488),
  (8490, 8493), (8495, 8505), (8508, 8511), (8517, 8521), (8526, 8526), (8544, 8584),
  (9398, 9449), (11264, 11492), (11499, 11507), (11520, 11557), (11559, 11559), (11565, 11565),
  (11568, 11623), (11631, 11631), (11647, 11670), (11680, 11686), (11688, 11694), (11696, 11702),
  (11704, 11710), (11712, 11718), (11720, 11726), (11728, 11734), (11736, 11742), (11744, 11775),
  (11823, 11823), (12293, 12295), (12321, 12335), (12337, 12341), (12344, 12348), (12353, 12438),
  (12441, 12442), (12445, 12447), (12449, 12538), (12540, 12543), (12549, 12591), (12593, 12686),
  (12704, 12735), (12784, 12799), (13312, 19903), (19968, 42124), (42192, 42237), (42240, 42508),
  (42512, 42539), (42560, 42610), (42612, 42621), (42623, 42737), (42775, 42783), (42786, 42888),
  (42891, 42954), (42960, 42961), (42963, 42963), (42965, 42969), (42994, 43047), (43052, 43052),
  (43072, 43123), (43136, 43205), (43216, 43225), (43232, 43255), (43259, 43259), (43261, 43309),
  (43312, 43347), (43360, 43388), (43392, 43456), (43471, 43481), (43488, 43518), (43520, 43574),
  (43584, 43597), (43600, 43609), (43616, 43638), (43642, 43714), (43739, 43741), (43744, 43759),
  (43762, 43766), (43777, 43782), (43785, 43790), (43793, 43798), (43808, 43814), (43816, 43822),
  (43824, 43866), (43868, 43881), (43888, 44010), (44012, 44013), (44016, 44025), (44032, 55203),
  (55216, 55238), (55243, 55291), (63744, 64109), (64112, 64217), (64256, 64262), (64275, 64279),
  (64285, 64296), (64298, 64310), (64312, 64316), (64318, 64318), (64320, 64321), (64323, 64324),
  (64326, 64433), (64467, 64829), (64848, 64911), (64914, 64967), (65008, 65019), (65024, 65039),
  (65056, 65071), (65075, 65076), (65101, 65103), (65136, 65140), (65142, 65276), (65296, 65305),
  (65313, 65338), (65343, 65343), (65345, 65370), (65382, 65470), (65474, 65479), (65482, 65487),
  (65490, 65495), (65498, 65500), (65536, 65547), (65549, 65574), (65576, 65594), (65596, 65597),
  (65599, 65613), (65616, 65629), (65664, 65786), (65856, 65908), (66045, 66045), (66176, 66204),
  (66208, 66256), (66272, 66272), (66304, 66335), (66349, 66378), (66384, 66426), (66432, 66461),
  (66464, 66499), (66504, 66511), (66513, 66517), (66560, 66717), (66720, 66729), (66736, 66771),
  (66776, 66811), (66816, 66855), (66864, 66915), (66928, 66938), (66940, 66954), (66956, 66962),
  (66964, 66965), (66967, 66977), (66979, 66993), (66995, 67001), (67003, 67004), (67072, 67382),
  (67392, 67413), (67424, 67431), (67456, 67461), (67463, 67504), (67506, 67514), (67584, 67589),
  (67592, 67592), (67594, 67637), (67639, 67640), (67644, 67644), (67647, 67669), (67680, 67702),
  (67712, 67742), (67808, 67826), (67828, 67829), (67840, 67861), (67872, 67897), (67968, 68023),
  (68030, 68031), (68096, 68099), (68101, 68102), (68108, 68115), (68117, 68119), (68121, 68149),
  (68152, 68154), (68159, 68159), (68192, 68220), (68224, 68252), (68288, 68295), (68297, 68326),
  (68352, 68405), (68416, 68437), (68448, 68466), (68480, 68497), (68608, 68680), (68736, 68786),
  (68800, 68850), (68864, 68903), (68912, 68921), (69248, 69289), (69291, 69292), (69296, 69297),
  (69376, 69404), (69415, 69415), (69424, 69456), (69488, 69509), (69552, 69572), (69600, 69622),
  (69632, 69702), (69734, 69749), (69759, 69818), (69826, 69826), (69840, 69864), (69872, 69881),
  (69888, 69940), (69942, 69951), (69956, 69959), (69968, 70003), (70006, 70006), (70016, 70084),
  (70089, 70092), (70094, 70106), (70108, 70108), (70144, 70161), (70163, 70199), (70206, 70206),
  (70272, 70278), (70280, 70280), (70282, 70285), (70287, 70301), (70303, 70312), (70320, 70378),
  (70384, 70393), (70400, 70403), (70405, 70412), (70415, 70416), (70419, 70440), (70442, 70448),
  (70450, 70451), (70453, 70457), (70459, 70468), (70471, 70472), (70475, 70477), (70480, 70480),
  (70487, 70487), (70493, 70499), (70502, 70508), (70512, 70516), (70656, 70730), (70736, 70745),
  (70750, 70753), (70784, 70853), (70855, 70855), (70864, 70873), (71040, 71093), (71096, 71104),
  (71128, 71133), (71168, 71232), (71236, 71236), (71248, 71257), (71296, 71352), (71360, 71369),
  (71424, 71450), (71453, 71467), (71472, 71481), (71488, 71494), (71680, 71738), (71840, 71913),
  (71935, 71942), (71945, 71945), (71948, 71955), (71957, 71958), (71960, 71989), (71991, 71992),
  (71995, 72003), (72016, 72025), (72096, 72103), (72106, 72151), (72154, 72161), (72163, 72164),
  (72192, 72254), (72263, 72263), (72272, 72345), (72349, 72349), (72368, 72440), (72704, 72712),
  (72714, 72758), (72760, 72768), (72784, 72793), (72818, 72847), (72850, 72871), (72873, 72886),
  (72960, 72966), (72968, 72969), (72971, 73014), (73018, 73018), (73020, 73021), (73023, 73031),
  (73040, 73049), (73056, 73061), (73063, 73064), (73066, 73102), (73104, 73105), (73107, 73112),
  (73120, 73129), (73440, 73462), (73648, 73648), (73728, 74649), (74752, 74862), (74880, 75075),
  (77712, 77808), (77824, 78894), (82944, 83526), (92160, 92728), (92736, 92766), (92768, 92777),
  (92784, 92862), (92864, 92873), (92880, 92909), (92912, 92916), (92928, 92982), (92992, 92995),
  (93008, 93017), (93027, 93047), (93053, 93071), (93760, 93823), (93952, 94026), (94031, 94087),
  (94095, 94111), (94176, 94177), (94179, 94180), (94192, 94193), (94208, 100343), (100352, 101589),
  (101632, 101640), (110576, 110579), (110581, 110587), (110589, 110590), (110592, 110882), (110928, 110930),
  (110948, 110951), (110960, 111355), (113664, 113770), (113776, 113788), (113792, 113800), (113808, 113817),
  (113821, 113822), (118528, 118573), (118576, 118598), (119141, 119145), (119149, 119154), (119163, 119170),
  (119173, 119179), (119210, 119213), (119362, 119364), (119808, 119892), (119894, 119964), (119966, 119967),
  (119970, 119970), (119973, 119974), (119977, 119980), (119982, 119993), (119995, 119995), (119997, 120003),
  (120005, 120069), (120071, 120074), (120077, 120084), (120086, 120092), (120094, 120121), (120123, 120126),
  (120128, 120132), (120134, 120134), (120138, 120144), (120146, 120485), (120488, 120512), (120514, 120538),
  (120540, 120570), (120572, 120596), (120598, 120628), (120630, 120654), (120656, 120686), (120688, 120712),
  (120714, 120744), (120746, 120770), (120772, 120779), (120782, 120831), (121344, 121398), (121403, 121452),
  (121461, 121461), (121476, 121476), (121499, 121503), (121505, 121519), (122624, 122654), (122880, 122886),
  (122888, 122904), (122907, 122913), (122915, 122916), (122918, 122922), (123136, 123180), (123184, 123197),
  (123200, 123209), (123214, 123214), (123536, 123566), (123584, 123641), (124896, 124902), (124904, 124907),
  (124909, 124910), (124912, 124926), (124928, 125124), (125136, 125142), (125184, 125259), (125264, 125273),
  (126464, 126467), (126469, 126495), (126497, 126498), (126500, 126500), (126503, 126503), (126505, 126514),
  (126516, 126519), (126521, 126521), (126523, 126523), (126530, 126530), (126535, 126535), (126537, 126537),
  (126539, 126539), (126541, 126543), (126545, 126546), (126548, 126548), (126551, 126551), (126553, 126553),
  (126555, 126555), (126557, 126557), (126559, 126559), (126561, 126562), (126564, 126564), (126567, 126570),
  (126572, 126578), (126580, 126583), (126585, 126588), (126590, 126590), (126592, 126601), (126603, 126619),
  (126625, 126627), (126629, 126633), (126635, 126651), (130032, 130041), (131072, 173791), (173824, 177976),
  (177984, 178205), (178208, 183969), (183984, 191456), (194560, 195101), (196608, 201546), (917760, 917999)
]

/-- Word character for the `\b` boundary assertion (`\w`), on code points:
membership in `wordRanges`. -/
def wordCharN (n : Nat) : Bool :=
  wordRanges.any (fun r => r.1 ≤ n && n ≤ r.2)

/-- Word character for the `\b` boundary assertion (`\w`). -/
def wordChar (c : Char) : Bool :=
  wordCharN c.toNat

/-- The compound-assignment operator class `[+\-*/%]`. -/
def opChar (c : Char) : Bool :=
  c == '+' || c == '-' || c == '*' || c == '/' || c == '%'

/-- Split off the longest prefix whose characters all satisfy `p`. -/
def spanP (p : Char → Bool) (cs : List Char) : List Char × List Char :=
  (cs.takeWhile p, cs.dropWhile p)

/-- Split a text into the segment up to and including the first newline, and
the remainder (the next line start). -/
def breakAfterNl : List Char → List Char × List Char
  | [] => ([], [])
  | c :: cs =>
    if c = '\n' then ([c], cs)
    else
      let r := breakAfterNl cs
      (c :: r.1, r.2)

/-!
## Generic scanners

`scanAllF` models `Regex::replace_all` for an unanchored pattern: it tries the
pattern at every position from left to right; at a match it emits the
replacement and resumes after the matched text; the Boolean records whether at
least one match was found (in the Rust code, whether `replace_all` returned
`Cow::Owned`).  `try cs` returns the replacement together with the number of
characters consumed.  The fuel argument dominates the input length; the
wrappers instantiate it with the length, which always suffices because every
match of the patterns used here consumes at least one character.
-/

def scanAllF (tryM : List Char → Option (List Char × Nat)) :
    Nat → List Char → List Char × Bool
  | 0, cs => (cs, false)
  | fuel + 1, cs =>
    if cs = [] then ([], false)
    else
      match tryM cs with
      | some (repl, n) =>
        if 0 < n then
          let r := scanAllF tryM fuel (cs.drop n)
          (repl ++ r.1, true)
        else
          let r := scanAllF tryM fuel cs.tail
          (cs.take 1 ++ r.1, r.2)
      | none =>
        let r := scanAllF tryM fuel cs.tail
        (cs.take 1 ++ r.1, r.2)

def scanAll (tryM : List Char → Option (List Char × Nat)) (cs : List Char) :
    List Char × Bool :=
  scanAllF tryM cs.length cs

/-- Result of a line-anchored scan: final callback state, output text, whether
any match was found, and the captures of the successive matches in order. -/
structure LineOut (σ γ : Type) where
  st : σ
  text : List Char
  matched : Bool
  caps : List γ
deriving Repr

/--
`lineScanSF` models `Regex::replace_all` (and `captures_iter`) for the
`(?m)^…` line-anchored patterns of the source.  The pattern is attempted at
every line start from top to bottom; `tryM cs` returns a capture and the
number of characters consumed (a match may run across line boundaries, since
`\s` matches `\n`).  On a match, `step` turns the capture into a replacement
(threading the state of the Rust `FnMut` closure), and scanning resumes at
the next line start after the matched text; on a failure the whole line is
emitted unchanged.  Replacement text is never re-scanned.
-/
def lineScanSF (tryM : List Char → Option (γ × Nat))
    (step : σ → γ → σ × List Char) :
    Nat → σ → List Char → LineOut σ γ
  | 0, a, cs => ⟨a, cs, false, []⟩
  | fuel + 1, a, cs =>
    if cs = [] then ⟨a, [], false, []⟩
    else
      match tryM cs with
      | some (g, n) =>
        if 0 < n then
          let s' := step a g
          let br := breakAfterNl (cs.drop n)
          let o := lineScanSF tryM step fuel s'.1 br.2
          ⟨o.st, s'.2 ++ br.1 ++ o.text, true, g :: o.caps⟩
        else
          let br := breakAfterNl cs
          let o := lineScanSF tryM step fuel a br.2
          ⟨o.st, br.1 ++ o.text, o.matched, o.caps⟩
      | none =>
        let br := breakAfterNl cs
        let o := lineScanSF tryM step fuel a br.2
        ⟨o.st, br.1 ++ o.text, o.matched, o.caps⟩

/-- A stateless line-anchored replacement pass (the capture is already the
rendered replacement text). -/
def linePass (tryM : List Char → Option (List Char × Nat)) (cs : List Char) :
    List Char × Bool :=
  let o := lineScanSF tryM (fun _ r => ((), r)) cs.length () cs
  (o.text, o.matched)

/-!
## The seven rewrite passes of `patch_lua`
-/

/-- Pass 1: the regex `!=`, replaced by `~=`. -/
def neqTry : List Char → Option (List Char × Nat)
  | '!' :: '=' :: _ => some ("~=".data, 2)
  | _ => none

/-- Pass 2: the regex `//`, replaced by `--`. -/
def slashTry : List Char → Option (List Char × Nat)
  | '/' :: '/' :: _ => some ("--".data, 2)
  | _ => none

/-- The button-symbol substitution of the source closure: trim trailing
`\u{fe0f}` presentation selectors, then map the six Pico-8 glyphs to their
button codes, passing anything else through. -/
def btnSym (s : List Char) : List Char :=
  let t := (s.reverse.dropWhile (fun c => c == '️')).reverse
  if t = ['⬅'] then ['0']
  else if t = ['➡'] then ['1']
  else if t = ['⬆'] then ['2']
  else if t = ['⬇'] then ['3']
  else if t = ['🅾'] then ['4']
  else if t = ['❎'] then ['5']
  else t

/-- Largest index `k` with `1 ≤ k < w.length` and `w[k] = ')'`: the backtrack
target of the greedy `\S+` when `\s*\)` does not follow the full run. -/
def lastClose (w : List Char) : Option Nat :=
  match w.reverse.findIdx? (fun c => c == ')') with
  | some j =>
    let k := w.length - 1 - j
    if 1 ≤ k then some k else none
  | none => none

/-- Pass 3 after `(btnp?)\(` has matched: the tail `\s*(\S+)\s*\)` with the
greedy `\S+` backtracking just enough for the closing parenthesis. `pre` is
the number of characters already consumed. -/
def btnAfterParen (func : List Char) (pre : Nat) (r1 : List Char) :
    Option (List Char × Nat) :=
  let ws1 := r1.takeWhile rustWs
  let r2 := r1.dropWhile rustWs
  let w := r2.takeWhile (fun c => !rustWs c)
  let r3 := r2.dropWhile (fun c => !rustWs c)
  if w = [] then none
  else
    let ws2 := r3.takeWhile rustWs
    let r4 := r3.dropWhile rustWs
    match r4 with
    | ')' :: _ =>
      some (func ++ '(' :: btnSym w ++ [')'],
        pre + ws1.length + w.length + ws2.length + 1)
    | _ =>
      match lastClose w with
      | some k =>
        some (func ++ '(' :: btnSym (w.take k) ++ [')'],
          pre + ws1.length + k + 1)
      | none => none

/-- Pass 3: the regex `(btnp?)\(\s*(\S+)\s*\)` with the source's symbol
substitution closure. -/
def btnTry : List Char → Option (List Char × Nat)
  | 'b' :: 't' :: 'n' :: rest =>
    match rest with
    | 'p' :: '(' :: r1 => btnAfterParen "btnp".data 5 r1
    | '(' :: r1 => btnAfterParen "btn".data 4 r1
    | _ => none
  | _ => none

/-- Does `\bthen\b` match anywhere in the text?  `prev` is the character
preceding the scanned suffix (`none` at the start of the capture). -/
def hasWordThen : Option Char → List Char → Bool
  | _, [] => false
  | prev, c :: cs =>
    (c == 't' && "hen".data.isPrefixOf cs &&
      (match prev with | none => true | some p => !wordChar p) &&
      (match cs.drop 3 with | [] => true | d :: _ => !wordChar d)) ||
    hasWordThen (some c) cs

/-- Modelled from the spec: the Delimiter Matcher of section 4.1, standing in
for the external crate function `find_matching_bracket::find_matching_paren`
(its code is not part of this repository).  Scan forward keeping a signed
depth counter, incrementing at `(` and decrementing at `)`, and return the
offset where the depth first returns to zero after the initial increment;
`none` if the text ends first. -/
def fmpGo : List Char → Nat → Int → Option Nat
  | [], _, _ => none
  | c :: cs, i, d =>
    if c = '(' then fmpGo cs (i + 1) (d + 1)
    else if c = ')' then
      if d - 1 = 0 then some i else fmpGo cs (i + 1) (d - 1)
    else fmpGo cs (i + 1) d

/-- Modelled from the spec: see `fmpGo`. -/
def find_matching_paren (s : List Char) (start : Nat) : Option Nat :=
  fmpGo (s.drop start) start 0

/-- Proper parenthesis nesting at depth `d`: no prefix closes more than it
opens, and the whole text returns to depth zero.  Used to state when the
Delimiter Matcher finds the closing parenthesis right after such a text. -/
def balGo (d : Nat) : List Char → Bool
  | [] => d == 0
  | ch :: r =>
    if ch = '(' then balGo (d + 1) r
    else if ch = ')' then decide (d ≠ 0) && balGo (d - 1) r
    else balGo d r

def trimStartWs (cs : List Char) : List Char := cs.dropWhile rustWs

def trimEndWs (cs : List Char) : List Char := (cs.reverse.dropWhile rustWs).reverse

/-- Index of the first occurrence of `--`. -/
def firstDashDash : List Char → Option Nat
  | [] => none
  | '-' :: '-' :: _ => some 0
  | _ :: cs => (firstDashDash cs).map (· + 1)

/-- Pass 4's replacement closure, from the source: pass the whole match
through when `\bthen\b` already occurs in the captured line or no matching
parenthesis exists; otherwise rebuild the line as
`<indent>if <cond> then <body> end`, moving a trailing `--` comment after the
`end`. `caps0` is the whole match, `pre` the indent capture, `line` the
capture starting at `(`. -/
def ifClosure (caps0 pre line : List Char) : List Char :=
  if hasWordThen none line then caps0
  else
    match find_matching_paren line 0 with
    | some index =>
      let cond := (line.take index).drop 1
      let body := trimStartWs (line.drop (index + 1))
      match firstDashDash body with
      | some cstart =>
        pre ++ "if ".data ++ cond ++ " then ".data ++
          trimEndWs (body.take cstart) ++ " end ".data ++ body.drop cstart
      | none =>
        pre ++ "if ".data ++ cond ++ " then ".data ++ body ++ " end".data
    | none => caps0

/-- Pass 4: the line-anchored regex `(?m)^(\s*)if\s*(\([^\n]*)$` together
with its closure `ifClosure`. -/
def ifTry (cs : List Char) : Option (List Char × Nat) :=
  let ws1 := cs.takeWhile rustWs
  let r1 := cs.dropWhile rustWs
  match r1 with
  | 'i' :: 'f' :: r2 =>
    let ws2 := r2.takeWhile rustWs
    let r3 := r2.dropWhile rustWs
    match r3 with
    | '(' :: _ =>
      let line := r3.takeWhile (fun c => !(c == '\n'))
      some (ifClosure (ws1 ++ 'i' :: 'f' :: (ws2 ++ line)) ws1 line,
        ws1.length + 2 + ws2.length + line.length)
    | _ => none
  | _ => none

/-- The replacement template `$1 = $1 $2 ($3)$4` of pass 5. -/
def mkAssign (c1 : List Char) (op : Char) (c3 c4 : List Char) : List Char :=
  c1 ++ " = ".data ++ c1 ++ [' ', op, ' ', '('] ++ c3 ++ [')'] ++ c4

/-- The terminator alternation `(\bend|\belse|;|--|$)` of pass 5, tried left
to right at one position; `prev` is the preceding character (for `\b`),
and `$` is the multi-line end-of-line assertion. -/
def group4Alt (prev : Char) (t : List Char) : Option (List Char × List Char) :=
  if "end".data.isPrefixOf t && !wordChar prev then some ("end".data, t.drop 3)
  else if "else".data.isPrefixOf t && !wordChar prev then
    some ("else".data, t.drop 4)
  else if ";".data.isPrefixOf t then some ([';'], t.drop 1)
  else if "--".data.isPrefixOf t then some (['-', '-'], t.drop 2)
  else if t = [] || t.head? == some '\n' then some ([], t)
  else none

/-- The greedy `\s*` before the terminator alternation: `m` is the maximal
whitespace run, `r` the rest; lengths are tried from `i` downwards. -/
def group4Loop (prev : Char) (m r : List Char) : Nat → Option (List Char × List Char)
  | 0 => group4Alt prev (m ++ r)
  | i + 1 =>
    match group4Alt (m.getD i prev) (m.drop (i + 1) ++ r) with
    | some (a, rest) => some (m.take (i + 1) ++ a, rest)
    | none => group4Loop prev m r i

/-- Pass 5's capture 4, `(\s*(\bend|\belse|;|--|$))`, matched at `s` with
preceding character `prev`; returns the capture and the remaining text. -/
def group4 (prev : Char) (s : List Char) : Option (List Char × List Char) :=
  let m := s.takeWhile rustWs
  let r := s.dropWhile rustWs
  group4Loop prev m r m.length

/-- The lazy `([^\n\r]+?)` of pass 5: grow capture 3 one character at a time,
stopping at the first position where the terminator group matches. -/
def lazy3 (acc : List Char) : List Char → Option (List Char × List Char × List Char)
  | [] => none
  | c :: tl =>
    if c == '\n' || c == '\r' then none
    else
      match group4 c tl with
      | some (g4, rest) => some (acc ++ [c], g4, rest)
      | none => lazy3 (acc ++ [c]) tl

/-- The tail `\s*([^\n\r]+?)(\s*(\bend|\belse|;|--|$))` after the `=`:
the greedy `\s*` backtracks from the maximal run down to empty.  Returns
captures 3 and 4, the remaining text, and the number of characters consumed. -/
def bLoop (bw r : List Char) : Nat → Option (List Char × List Char × List Char × Nat)
  | 0 =>
    match lazy3 [] (bw ++ r) with
    | some (c3, c4, rest) => some (c3, c4, rest, c3.length + c4.length)
    | none => none
  | i + 1 =>
    match lazy3 [] (bw.drop (i + 1) ++ r) with
    | some (c3, c4, rest) => some (c3, c4, rest, i + 1 + c3.length + c4.length)
    | none => bLoop bw r i

/-- See `bLoop`. -/
def tailMatch (rest : List Char) : Option (List Char × List Char × List Char × Nat) :=
  let bw := rest.takeWhile rustWs
  let r := rest.dropWhile rustWs
  bLoop bw r bw.length

/-- Pass 5 with the target capture split after `k` characters of the maximal
non-whitespace run `w` (the backtracked `\S*`): the operator and `=` must
follow immediately inside `w`. -/
def assignAtK (w r1 : List Char) (k : Nat) : Option (List Char × Nat) :=
  match w.drop k with
  | op :: '=' :: tl =>
    if opChar op then
      match tailMatch (tl ++ r1) with
      | some (c3, c4, _, m) => some (mkAssign (w.take k) op c3 c4, k + 2 + m)
      | none => none
    else none
  | _ => none

/-- Pass 5 with the full non-whitespace run as target: `\s*` may separate the
target from the operator. -/
def assignFullK (w r1 : List Char) : Option (List Char × Nat) :=
  let ws2 := r1.takeWhile rustWs
  let r2 := r1.dropWhile rustWs
  match r2 with
  | op :: '=' :: tl =>
    if opChar op then
      match tailMatch tl with
      | some (c3, c4, _, m) =>
        some (mkAssign w op c3 c4, w.length + ws2.length + 2 + m)
      | none => none
    else none
  | _ => none

/-- Backtracking of the greedy `\S*` in the target capture: split positions
are tried from long to short, down to a single character. -/
def assignBack (w r1 : List Char) : Nat → Option (List Char × Nat)
  | 0 => none
  | k + 1 =>
    match assignAtK w r1 (k + 1) with
    | some res => some res
    | none => assignBack w r1 k

/-- Pass 5: the regex
`(?m)([^-\s]\S*)\s*([+\-*/%])=\s*([^\n\r]+?)(\s*(\bend|\belse|;|--|$))`
with replacement `$1 = $1 $2 ($3)$4`. -/
def assignTry : List Char → Option (List Char × Nat)
  | [] => none
  | c :: rest =>
    if rustWs c || c == '-' then none
    else
      let w := c :: rest.takeWhile (fun d => !rustWs d)
      let r1 := rest.dropWhile (fun d => !rustWs d)
      match assignFullK w r1 with
      | some res => some res
      | none => assignBack w r1 (w.length - 1)

/-- Pass 6: the regex `(?m)^(\s*)\?([^\n\r]+)` with replacement
`${1}print($2)`. -/
def printTry (cs : List Char) : Option (List Char × Nat) :=
  let ws1 := cs.takeWhile rustWs
  let r1 := cs.dropWhile rustWs
  match r1 with
  | '?' :: r2 =>
    let body := r2.takeWhile (fun c => !(c == '\n') && !(c == '\r'))
    if body = [] then none
    else some (ws1 ++ "print(".data ++ body ++ [')'],
      ws1.length + 1 + body.length)
  | _ => none

/-- The value of a base-2 digit string. -/
def binVal (cs : List Char) : Nat :=
  cs.foldl (fun a c => 2 * a + (if c == '1' then 1 else 0)) 0

/-- `u64::from_str_radix(_, 2)`: fails on an empty string, a non-binary
digit, or a value not fitting in 64 bits. -/
def parseBinDigits (cs : List Char) : Option Nat :=
  if cs = [] then none
  else if !(cs.all fun c => c == '0' || c == '1') then none
  else if binVal cs < 2 ^ 64 then some (binVal cs) else none

/-- The source's `bin.split('.')` of which only the first two fields are
consumed (`parts.next()` twice, further fields ignored). -/
def splitDot (cs : List Char) : List Char × List Char :=
  let p1 := cs.takeWhile (fun c => !(c == '.'))
  let r := cs.dropWhile (fun c => !(c == '.'))
  match r with
  | _ :: rest => (p1, rest.takeWhile (fun c => !(c == '.')))
  | [] => (p1, [])

/-- `format!("{:0<4}", p2)`: left-align and fill with `0` to a minimum width
of four. -/
def padMin4 (cs : List Char) : List Char :=
  cs ++ List.replicate (4 - cs.length) '0'

/-- `format!("{:x}", n)`: lowercase hexadecimal digits. -/
def hexChars (n : Nat) : List Char := Nat.toDigits 16 n

/-- Pass 7: the regex `([^[:alnum:]_])0[bB]([01.]+)` with the source's
binary-to-hexadecimal conversion closure (pass-through of the whole match
when the integer part fails to parse). -/
def binTry : List Char → Option (List Char × Nat)
  | c :: '0' :: b :: rest =>
    if !asciiAlnum c && !(c == '_') && (b == 'b' || b == 'B') then
      let digits := rest.takeWhile (fun d => d == '0' || d == '1' || d == '.')
      if digits = [] then none
      else
        let pq := splitDot digits
        let int_val := parseBinDigits pq.1
        let frac_val := if pq.2 ≠ [] then parseBinDigits (padMin4 pq.2) else none
        let n := 3 + digits.length
        match int_val, frac_val with
        | some i, some f =>
          some (c :: "0x".data ++ hexChars i ++ '.' :: hexChars f, n)
        | some i, none => some (c :: "0x".data ++ hexChars i, n)
        | none, _ => some (c :: '0' :: b :: digits, n)
    else none
  | _ => none

def neqPass (cs : List Char) : List Char × Bool := scanAll neqTry cs

def slashPass (cs : List Char) : List Char × Bool := scanAll slashTry cs

def btnPass (cs : List Char) : List Char × Bool := scanAll btnTry cs

def ifPass (cs : List Char) : List Char × Bool := linePass ifTry cs

def assignPass (cs : List Char) : List Char × Bool := scanAll assignTry cs

def printPass (cs : List Char) : List Char × Bool := linePass printTry cs

def binPass (cs : List Char) : List Char × Bool := scanAll binTry cs

/-- Decidable side condition for claim C2: at no interior cut of the
expression — the text `e.drop i ++ tail` for `1 ≤ i < e.length` — does one
of the terminator tokens `end`, `else`, `;`, `--` start (`tail` is the text
following the expression, so cuts reading across the boundary are
covered). -/
def noTermAt (e tail : List Char) : Bool :=
  (List.range e.length).all fun i =>
    decide (i = 0) ||
    (!("end".data.isPrefixOf (e.drop i ++ tail)) &&
      !("else".data.isPrefixOf (e.drop i ++ tail)) &&
      !(";".data.isPrefixOf (e.drop i ++ tail)) &&
      !("--".data.isPrefixOf (e.drop i ++ tail)))

/-- Decidable side condition for claim C2: no adjacent pair `<op>=` (op
among `+ - * / %`) occurs inside the text. -/
def noOpEq : List Char → Bool
  | x :: y :: tl => !(opChar x && y == '=') && noOpEq (y :: tl)
  | _ => true

/-!
## The `Cow` pipeline
-/

/-- `std::borrow::Cow<str>`: either the borrowed input or an owned, freshly
allocated string. -/
inductive Cow where
  | borrowed : List Char → Cow
  | owned : List Char → Cow
deriving DecidableEq, Repr

def Cow.text : Cow → List Char
  | borrowed s => s
  | owned s => s

/-- `replace_all_in_place` from the source: run one `replace_all` pass on the
current text; if it produced an owned value (at least one match), the cow
becomes owned, otherwise it is left untouched. -/
def replace_all_in_place (pass : List Char → List Char × Bool) (c : Cow) : Cow :=
  let r := pass c.text
  if r.2 then Cow.owned r.1 else c

/-- The seven passes of `patch_lua`, in source order. -/
def passes : List (List Char → List Char × Bool) :=
  [neqPass, slashPass, btnPass, ifPass, assignPass, printPass, binPass]

/-- `patch_lua` from the source: the seven `replace_all_in_place` calls in
order, starting from the borrowed input. -/
def patch_lua (s : List Char) : Cow :=
  passes.foldl (fun c p => replace_all_in_place p c) (Cow.borrowed s)

/-- `was_patched` from the source. -/
def was_patched (c : Cow) : Bool :=
  match c with
  | Cow.owned _ => true
  | Cow.borrowed _ => false

/-- Does at least one of the seven pass patterns match somewhere in the
input text? -/
def anyPassMatch (s : List Char) : Bool :=
  passes.any (fun p => (p s).2)

/-!
## Include resolution

The three include entry points share the regex `(?m)^\s*#include\s+(\S+)`;
the capture is the path token.  `try_patch_includes` and `patch_includes`
replace each whole directive match with the resolver's output;
`find_includes` only collects the captures (`captures_iter`).  The resolver
is a Rust `FnMut` closure, modelled here as an explicit state `σ` threaded
through the calls.
-/

/-- The include regex `(?m)^\s*#include\s+(\S+)`, matched at a line start;
returns the path capture and the number of characters consumed. -/
def includeTry (cs : List Char) : Option (List Char × Nat) :=
  let ws0 := cs.takeWhile rustWs
  let r1 := cs.dropWhile rustWs
  if "#include".data.isPrefixOf r1 then
    let r2 := r1.drop 8
    let ws1 := r2.takeWhile rustWs
    let r3 := r2.dropWhile rustWs
    if ws1 = [] then none
    else
      let path := r3.takeWhile (fun c => !rustWs c)
      if path = [] then none
      else some (path, ws0.length + 8 + ws1.length + path.length)
  else none

/-- `find_includes` from the source: the ordered list of path captures of the
include regex (`captures_iter` — same matching as the replacing entry points,
no substitution). -/
def find_includes (cs : List Char) : List (List Char) :=
  (lineScanSF includeTry (fun _ _ => ((), ([] : List Char))) cs.length () cs).caps

/-- `{:?}` applied to a `&str`: quote and backslash-escape the string (the
escaping of other characters done by Rust's `Debug` is not modelled; the
claims never evaluate the marker on such characters). -/
def rustDebug (s : List Char) : List Char :=
  '"' :: (s.flatMap fun c =>
    if c = '"' then ['\\', '"'] else if c = '\\' then ['\\', '\\'] else [c]) ++ ['"']

/-- The fallback text substituted for a failing include:
`format!` of `error("failed to include {:?}: {}")` with the path and the
error's display (`dispE`). -/
def errMarker (dispE : ε → List Char) (path : List Char) (e : ε) : List Char :=
  "error(\"failed to include ".data ++ rustDebug path ++ ": ".data ++
    dispE e ++ "\")".data

/-- The `FnMut` closure of `try_patch_includes`: call the resolver; on
success substitute its output; on failure substitute the error marker and
record the error if it is the first one. -/
def includeStep (resolve : σ → List Char → σ × Except ε (List Char))
    (dispE : ε → List Char) :
    σ × Option ε → List Char → (σ × Option ε) × List Char
  | (a, err), path =>
    let r := resolve a path
    match r.2 with
    | Except.ok s => ((r.1, err), s)
    | Except.error e =>
      ((r.1, match err with | some e0 => some e0 | none => some e),
        errMarker dispE path e)

/-- `try_patch_includes` from the source: substitute every include directive,
remembering the first resolver error; finish with `error.unwrap_or(Ok(lua))`,
so the substituted text is returned only when no error occurred.  The `Bool`
is the ownedness of the returned `Cow` (at least one directive matched). -/
def try_patch_includes (dispE : ε → List Char)
    (resolve : σ → List Char → σ × Except ε (List Char)) (a : σ)
    (cs : List Char) : σ × Except ε (List Char × Bool) :=
  let o := lineScanSF includeTry (includeStep resolve dispE) cs.length (a, none) cs
  match o.st.2 with
  | some e => (o.st.1, Except.error e)
  | none => (o.st.1, Except.ok (o.text, o.matched))

/-- `patch_includes` from the source: same matching, infallible resolver. -/
def patch_includes (resolve : σ → List Char → σ × List Char) (a : σ)
    (cs : List Char) : σ × List Char × Bool :=
  let o := lineScanSF includeTry resolve cs.length a cs
  (o.st, o.text, o.matched)

/-- Reference fold: run the resolver over a list of paths in order,
unconditionally, returning the final resolver state and the first error. -/
def resolveFold (resolve : σ → List Char → σ × Except ε (List Char)) (a : σ) :
    List (List Char) → σ × Option ε
  | [] => (a, none)
  | p :: ps =>
    let r := resolve a p
    let rest := resolveFold resolve r.1 ps
    (rest.1, match r.2 with | Except.ok _ => rest.2 | Except.error e => some e)

/-!
## The command-line driver (`src/bin/pico8-to-lua.rs`)
-/

/-- Index of the first occurrence of `pat` as a contiguous sublist. -/
def findSub (pat : List Char) : List Char → Option Nat
  | [] => if pat.isPrefixOf ([] : List Char) then some 0 else none
  | c :: cs =>
    if pat.isPrefixOf (c :: cs) then some 0
    else (findSub pat cs).map (· + 1)

/-- `str::split` with a (nonempty) string delimiter: the fields between
successive non-overlapping leftmost occurrences. -/
def splitOnStrF (pat : List Char) : Nat → List Char → List (List Char)
  | 0, cs => [cs]
  | fuel + 1, cs =>
    match findSub pat cs with
    | some i => cs.take i :: splitOnStrF pat fuel (cs.drop (i + pat.length))
    | none => [cs]

def splitOnStr (pat cs : List Char) : List (List Char) :=
  splitOnStrF pat (cs.length + 1) cs

/-- The output of `main` in `src/bin/pico8-to-lua.rs`, after the input has
been read (I/O and argument handling are outside the model): detect the
cartridge envelope by its literal prefix, cut the code section between
`__lua__\n` and `__gfx__`, patch it, and print.  The final `if` has no
`else` branch in the source, so nothing at all is printed when the envelope
prefix is absent or the `--lua-only` flag was given. -/
def mainOutput (input : List Char) (output_lua_only : Bool) : List Char :=
  let is_p8_file := "pico-8 cartridge".data.isPrefixOf input
  let t1 := splitOnStr "__lua__\n".data input
  let useEnv := is_p8_file && decide (1 < t1.length)
  let t2 := splitOnStr "__gfx__".data (t1.getD 1 [])
  let before_lua : Option (List Char) :=
    if useEnv then some (t1.getD 0 []) else none
  let after_lua : Option (List Char) :=
    if useEnv && decide (1 < t2.length) then some (t2.getD 1 []) else none
  let pico8_lua := if useEnv then t2.getD 0 [] else input
  let out_str := (patch_lua pico8_lua).text
  if is_p8_file && !output_lua_only then
    (before_lua.getD []) ++ "__lua__\n".data ++ out_str ++
      (match after_lua with
       | some a => "__gfx__".data ++ a
       | none => [])
  else []

/-!
## Fixtures for concrete witnesses
-/

/-- A logging resolver for witnesses: records every path it is asked to
resolve and fails (with error code 1) exactly on the path `a.p8`. -/
def exResolve (a : List (List Char)) (p : List Char) :
    List (List Char) × Except Nat (List Char) :=
  (a ++ [p], if p = "a.p8".data then Except.error 1 else Except.ok "ok()".data)

/-- A display function for the numeric error code of `exResolve`. -/
def exDisp (e : Nat) : List Char := hexChars e

/-- A two-directive document whose first include fails under `exResolve`. -/
def exInput : List Char := "#include a.p8\n#include b.lua\n".data

/-!
## Helper lemmas
-/

theorem spanP_append (p : Char → Bool) (xs ys : List Char)
    (h1 : ∀ c ∈ xs, p c = true) (h2 : ys.takeWhile p = []) :
    spanP p (xs ++ ys) = (xs, ys) := by
  induction xs with
  | nil =>
    simp only [spanP, List.nil_append, Prod.mk.injEq]
    refine ⟨h2, ?_⟩
    cases ys with
    | nil => rfl
    | cons y ys =>
      cases hy : p y with
      | true => simp [List.takeWhile, hy] at h2
      | false => simp [List.dropWhile, hy]
  | cons x xs ih =>
    have hx : p x = true := h1 x (by simp)
    have ih' := ih (fun c hc => h1 c (by simp [hc]))
    simp only [spanP, Prod.mk.injEq] at ih'
    simp only [spanP, List.cons_append, List.takeWhile, List.dropWhile, hx,
      Prod.mk.injEq, List.append_eq]
    exact ⟨by rw [ih'.1], ih'.2⟩

theorem takeWhile_eq_nil_of_head (p : Char → Bool) (c : Char) (cs : List Char)
    (h : p c = false) : (c :: cs).takeWhile p = [] := by
  simp [List.takeWhile, h]

theorem breakAfterNl_append (cs : List Char) :
    (breakAfterNl cs).1 ++ (breakAfterNl cs).2 = cs := by
  induction cs with
  | nil => rfl
  | cons c cs ih =>
    by_cases h : c = '\n' <;> simp [breakAfterNl, h, ih]

theorem breakAfterNl_no_nl (cs : List Char) (h : '\n' ∉ cs) :
    breakAfterNl cs = (cs, []) := by
  induction cs with
  | nil => rfl
  | cons c cs ih =>
    simp only [List.mem_cons, not_or] at h
    have hc : ¬ c = '\n' := fun hh => h.1 hh.symm
    simp [breakAfterNl, hc, ih h.2]

/-- If an unanchored scan reports no match, the text is returned unchanged. -/
theorem scanAllF_unmatched (tryM : List Char → Option (List Char × Nat)) :
    ∀ fuel cs, (scanAllF tryM fuel cs).2 = false →
      (scanAllF tryM fuel cs).1 = cs := by
  intro fuel
  induction fuel with
  | zero => intro cs _; rfl
  | succ fuel ih =>
    intro cs h
    by_cases hcs : cs = []
    · subst hcs; rfl
    · cases htry : tryM cs with
      | none =>
        simp only [scanAllF, if_neg hcs, htry] at h ⊢
        rw [ih _ h]
        cases cs with
        | nil => exact absurd rfl hcs
        | cons c cs => rfl
      | some r =>
        obtain ⟨repl, n⟩ := r
        by_cases hn : 0 < n
        · simp [scanAllF, if_neg hcs, htry, hn] at h
        · simp only [scanAllF, if_neg hcs, htry, if_neg hn] at h ⊢
          rw [ih _ h]
          cases cs with
          | nil => exact absurd rfl hcs
          | cons c cs => rfl

theorem scanAll_unmatched (tryM : List Char → Option (List Char × Nat))
    (cs : List Char) (h : (scanAll tryM cs).2 = false) :
    (scanAll tryM cs).1 = cs :=
  scanAllF_unmatched tryM cs.length cs h

/-!
## Generic lemmas about the line-anchored scanner
-/

/-- The sequence of captures depends only on the pattern and the input, never
on the replacement callback or its state. -/
theorem lineScanSF_caps_congr {γ σ₁ σ₂ : Type}
    (tryM : List Char → Option (γ × Nat))
    (step1 : σ₁ → γ → σ₁ × List Char) (step2 : σ₂ → γ → σ₂ × List Char) :
    ∀ fuel (a1 : σ₁) (a2 : σ₂) cs,
      (lineScanSF tryM step1 fuel a1 cs).caps =
      (lineScanSF tryM step2 fuel a2 cs).caps := by
  intro fuel
  induction fuel with
  | zero => intros; rfl
  | succ fuel ih =>
    intro a1 a2 cs
    by_cases hcs : cs = []
    · subst hcs; rfl
    · cases htry : tryM cs with
      | none =>
        simp only [lineScanSF, if_neg hcs, htry]
        exact ih _ _ _
      | some r =>
        obtain ⟨g, n⟩ := r
        by_cases hn : 0 < n
        · simp only [lineScanSF, if_neg hcs, htry, if_pos hn]
          exact congrArg (g :: ·) (ih _ _ _)
        · simp only [lineScanSF, if_neg hcs, htry, if_neg hn]
          exact ih _ _ _

/-- The final callback state is the fold of the callback over the captures in
order: the callback is invoked once per match, in document order. -/
theorem lineScanSF_st_fold {γ σ : Type}
    (tryM : List Char → Option (γ × Nat)) (step : σ → γ → σ × List Char) :
    ∀ fuel (a : σ) cs,
      (lineScanSF tryM step fuel a cs).st =
      (lineScanSF tryM step fuel a cs).caps.foldl (fun x g => (step x g).1) a := by
  intro fuel
  induction fuel with
  | zero => intros; rfl
  | succ fuel ih =>
    intro a cs
    by_cases hcs : cs = []
    · subst hcs; rfl
    · cases htry : tryM cs with
      | none =>
        simp only [lineScanSF, if_neg hcs, htry]
        exact ih _ _
      | some r =>
        obtain ⟨g, n⟩ := r
        by_cases hn : 0 < n
        · simp only [lineScanSF, if_neg hcs, htry, if_pos hn, List.foldl_cons]
          exact ih _ _
        · simp only [lineScanSF, if_neg hcs, htry, if_neg hn]
          exact ih _ _

/-- If a line-anchored scan reports no match, the text is returned
unchanged. -/
theorem lineScanSF_unmatched {γ σ : Type}
    (tryM : List Char → Option (γ × Nat)) (step : σ → γ → σ × List Char) :
    ∀ fuel (a : σ) cs, (lineScanSF tryM step fuel a cs).matched = false →
      (lineScanSF tryM step fuel a cs).text = cs := by
  intro fuel
  induction fuel with
  | zero => intros; rfl
  | succ fuel ih =>
    intro a cs
    by_cases hcs : cs = []
    · subst hcs; intro _; rfl
    · cases htry : tryM cs with
      | none =>
        simp only [lineScanSF, if_neg hcs, htry]
        intro h
        rw [ih _ _ h, breakAfterNl_append]
      | some r =>
        obtain ⟨g, n⟩ := r
        by_cases hn : 0 < n
        · simp only [lineScanSF, if_neg hcs, htry, if_pos hn]
          intro h
          simp at h
        · simp only [lineScanSF, if_neg hcs, htry, if_neg hn]
          intro h
          rw [ih _ _ h, breakAfterNl_append]

/-- Folding the error-tracking closure of `try_patch_includes` over a list of
paths runs the resolver on every path and keeps the first error. -/
theorem foldl_includeStep {σ ε : Type}
    (resolve : σ → List Char → σ × Except ε (List Char))
    (dispE : ε → List Char) :
    ∀ ps (a : σ) (err : Option ε),
      ps.foldl (fun x g => (includeStep resolve dispE x g).1) (a, err) =
      ((resolveFold resolve a ps).1,
        match err with
        | some e => some e
        | none => (resolveFold resolve a ps).2) := by
  intro ps
  induction ps with
  | nil => intro a err; cases err <;> rfl
  | cons p ps ih =>
    intro a err
    rw [List.foldl_cons]
    cases hr : (resolve a p).2 with
    | ok s =>
      have hstep : (includeStep resolve dispE (a, err) p).1 = ((resolve a p).1, err) := by
        simp [includeStep, hr]
      rw [hstep, ih]
      cases err <;> simp only [resolveFold, hr]
    | error e =>
      have hstep : (includeStep resolve dispE (a, err) p).1 =
          ((resolve a p).1,
            match err with | some e0 => some e0 | none => some e) := by
        cases err <;> simp [includeStep, hr]
      rw [hstep, ih]
      cases err <;> simp only [resolveFold, hr]

/-- The state of the `try_patch_includes` scan: the resolver has been run on
every captured path in order, and the recorded error is the first failure. -/
theorem try_patch_includes_st {σ ε : Type} (dispE : ε → List Char)
    (resolve : σ → List Char → σ × Except ε (List Char)) (a : σ)
    (cs : List Char) :
    (lineScanSF includeTry (includeStep resolve dispE) cs.length (a, none) cs).st =
      resolveFold resolve a (find_includes cs) := by
  rw [lineScanSF_st_fold]
  rw [lineScanSF_caps_congr includeTry (includeStep resolve dispE)
    (fun _ _ => ((), ([] : List Char))) cs.length (a, none) () cs]
  rw [foldl_includeStep]
  rfl

/-- Wrapping an infallible resolver in `Except.ok` makes `try_patch_includes`'s
scan behave exactly as `patch_includes`'s scan, with the error slot never
set. -/
theorem lineScanSF_ok_resolver {σ ε : Type}
    (resolve : σ → List Char → σ × List Char) (dispE : ε → List Char) :
    ∀ fuel (a : σ) (e0 : Option ε) cs,
      lineScanSF includeTry
        (includeStep (fun x p => ((resolve x p).1, Except.ok (resolve x p).2))
          dispE) fuel (a, e0) cs =
      ⟨((lineScanSF includeTry resolve fuel a cs).st, e0),
        (lineScanSF includeTry resolve fuel a cs).text,
        (lineScanSF includeTry resolve fuel a cs).matched,
        (lineScanSF includeTry resolve fuel a cs).caps⟩ := by
  intro fuel
  induction fuel with
  | zero => intros; rfl
  | succ fuel ih =>
    intro a e0 cs
    by_cases hcs : cs = []
    · subst hcs; rfl
    · cases htry : includeTry cs with
      | none =>
        simp only [lineScanSF, if_neg hcs, htry, ih]
      | some r =>
        obtain ⟨g, n⟩ := r
        by_cases hn : 0 < n
        · simp only [lineScanSF, if_neg hcs, htry, if_pos hn, includeStep, ih]
        · simp only [lineScanSF, if_neg hcs, htry, if_neg hn, ih]

/-- `try_patch_includes`, written as a function of the reference fold. -/
theorem try_patch_includes_eq {σ ε : Type} (dispE : ε → List Char)
    (resolve : σ → List Char → σ × Except ε (List Char)) (a : σ)
    (cs : List Char) :
    try_patch_includes dispE resolve a cs =
      ((resolveFold resolve a (find_includes cs)).1,
        match (resolveFold resolve a (find_includes cs)).2 with
        | some e => Except.error e
        | none =>
          Except.ok
            ((lineScanSF includeTry (includeStep resolve dispE) cs.length
                (a, none) cs).text,
              (lineScanSF includeTry (includeStep resolve dispE) cs.length
                (a, none) cs).matched)) := by
  have hst := try_patch_includes_st dispE resolve a cs
  simp only [try_patch_includes, hst]
  cases (resolveFold resolve a (find_includes cs)).2 <;> rfl

/-!
## Claims C6, C7 and C10: the include entry points
-/

/--
Claim C7: `try_patch_includes` is exhaustive: for every input and resolver,
the resolver is invoked once per include directive in order of first
appearance (its threaded state ends up as the in-order fold over
`find_includes`), even after an earlier resolution has failed, and the error
returned is exactly the first failure in that order.
-/
theorem claim_C7_exhaustive_first_error {σ ε : Type} (dispE : ε → List Char)
    (resolve : σ → List Char → σ × Except ε (List Char)) (a : σ)
    (cs : List Char) :
    (try_patch_includes dispE resolve a cs).1 =
      (resolveFold resolve a (find_includes cs)).1 ∧
    (∀ e, (resolveFold resolve a (find_includes cs)).2 = some e →
      (try_patch_includes dispE resolve a cs).2 = Except.error e) ∧
    ((resolveFold resolve a (find_includes cs)).2 = none →
      ∃ t, (try_patch_includes dispE resolve a cs).2 = Except.ok t) := by
  rw [try_patch_includes_eq dispE resolve a cs]
  cases herr : (resolveFold resolve a (find_includes cs)).2 with
  | none =>
    refine ⟨rfl, ?_, ?_⟩
    · intro e he
      simp [herr] at he
    · intro _
      exact ⟨_, rfl⟩
  | some e0 =>
    refine ⟨rfl, ?_, ?_⟩
    · intro e he
      cases he
      rfl
    · intro h
      simp [herr] at h

/--
Claim C7 witness: on a two-directive document whose first include fails,
the logging resolver is called on both paths in order and the returned error
is the first failure.
-/
theorem claim_C7_witness :
    (try_patch_includes exDisp exResolve [] exInput).1 =
      ["a.p8".data, "b.lua".data] ∧
    (try_patch_includes exDisp exResolve [] exInput).2 = Except.error 1 := by
  have h := claim_C7_exhaustive_first_error exDisp exResolve [] exInput
  refine ⟨?_, ?_⟩
  · rw [h.1]; decide
  · exact h.2.1 1 (by decide)

/--
Claim C6 (amended): when at least one include directive fails to resolve,
`try_patch_includes` returns only the first error; the substituted text is
not returned to the caller.
-/
theorem claim_C6_first_error_only {σ ε : Type} (dispE : ε → List Char)
    (resolve : σ → List Char → σ × Except ε (List Char)) (a : σ)
    (cs : List Char) (e : ε)
    (h : (resolveFold resolve a (find_includes cs)).2 = some e)
    (t : List Char × Bool) :
    (try_patch_includes dispE resolve a cs).2 ≠ Except.ok t := by
  rw [try_patch_includes_eq dispE resolve a cs, h]
  intro hc
  simp at hc

/--
Claim C6 counterexample: on a document whose (first) include fails, the
caller receives the bare error — not the substituted text paired with the
error as the claim states: the `Except` result is `error 1` and carries no
text component.
-/
theorem claim_C6_counterexample :
    try_patch_includes exDisp exResolve [] exInput =
      (["a.p8".data, "b.lua".data], Except.error 1) := rfl

/--
Claim C6 witness (for the amended claim): concrete instance of
`claim_C6_first_error_only` on the failing document.
-/
theorem claim_C6_witness :
    (try_patch_includes exDisp exResolve [] exInput).2 ≠
      Except.ok ("ok()".data, true) :=
  claim_C6_first_error_only exDisp exResolve [] exInput 1 (by decide) _

/--
Claim C10: for every input text and every resolver `r` that cannot fail,
`try_patch_includes` applied with the `Ok`-wrapping of `r` returns `Ok` of
exactly what `patch_includes` returns with `r` (same final resolver state,
same substituted text, same ownedness): the error-propagating and error-free
include entry points perform identical matching and substitution.
-/
theorem claim_C10_try_refines_patch {σ ε : Type} (dispE : ε → List Char)
    (resolve : σ → List Char → σ × List Char) (a : σ) (cs : List Char) :
    try_patch_includes dispE
        (fun x p => ((resolve x p).1, Except.ok (resolve x p).2)) a cs =
      ((patch_includes resolve a cs).1,
        Except.ok
          ((patch_includes resolve a cs).2.1,
            (patch_includes resolve a cs).2.2)) := by
  simp only [try_patch_includes, patch_includes]
  rw [lineScanSF_ok_resolver]

/-!
## Claims C3 and C4: the borrowed/owned discipline of `patch_lua`
-/

/-- Once the cow is owned, every further pass keeps it owned. -/
theorem foldl_replace_all_owned (ps : List (List Char → List Char × Bool)) :
    ∀ t, ∃ u,
      ps.foldl (fun c p => replace_all_in_place p c) (Cow.owned t) =
        Cow.owned u := by
  induction ps with
  | nil => intro t; exact ⟨t, rfl⟩
  | cons p ps ih =>
    intro t
    rw [List.foldl_cons]
    by_cases hf : (p t).2 = true
    · have h1 : replace_all_in_place p (Cow.owned t) = Cow.owned (p t).1 := by
        simp [replace_all_in_place, Cow.text, hf]
      rw [h1]; exact ih _
    · have h1 : replace_all_in_place p (Cow.owned t) = Cow.owned t := by
        simp only [replace_all_in_place, Cow.text]
        rw [Bool.not_eq_true] at hf
        rw [hf]
        simp
      rw [h1]; exact ih _

/-- If no pass pattern matches the input, the pipeline returns the borrowed
input itself. -/
theorem foldl_replace_all_borrowed (ps : List (List Char → List Char × Bool))
    (s : List Char) (hnone : ∀ p ∈ ps, (p s).2 = false) :
    ps.foldl (fun c p => replace_all_in_place p c) (Cow.borrowed s) =
      Cow.borrowed s := by
  induction ps with
  | nil => rfl
  | cons p ps ih =>
    have h1 : (p s).2 = false := hnone p (by simp)
    rw [List.foldl_cons]
    have h2 : replace_all_in_place p (Cow.borrowed s) = Cow.borrowed s := by
      simp [replace_all_in_place, Cow.text, h1]
    rw [h2]
    exact ih (fun q hq => hnone q (by simp [hq]))

/-- If some pass pattern matches the input, the pipeline returns an owned
value. -/
theorem foldl_replace_all_any (ps : List (List Char → List Char × Bool))
    (s : List Char) (h : ps.any (fun p => (p s).2) = true) :
    ∃ t, ps.foldl (fun c p => replace_all_in_place p c) (Cow.borrowed s) =
      Cow.owned t := by
  induction ps with
  | nil => simp at h
  | cons p ps ih =>
    rw [List.foldl_cons]
    by_cases hf : (p s).2 = true
    · have h2 : replace_all_in_place p (Cow.borrowed s) = Cow.owned (p s).1 := by
        simp [replace_all_in_place, Cow.text, hf]
      rw [h2]
      exact foldl_replace_all_owned ps (p s).1
    · have hf' : (p s).2 = false := by simpa using hf
      have h2 : replace_all_in_place p (Cow.borrowed s) = Cow.borrowed s := by
        simp [replace_all_in_place, Cow.text, hf']
      rw [h2]
      refine ih ?_
      simp only [List.any_cons, hf', Bool.false_or] at h
      exact h

/-- A borrowed pipeline result can only be the original input. -/
theorem foldl_replace_all_borrowed_inv
    (ps : List (List Char → List Char × Bool)) :
    ∀ s t, ps.foldl (fun c p => replace_all_in_place p c) (Cow.borrowed s) =
      Cow.borrowed t → t = s := by
  induction ps with
  | nil => intro s t h; cases h; rfl
  | cons p ps ih =>
    intro s t h
    rw [List.foldl_cons] at h
    by_cases hf : (p s).2 = true
    · have h2 : replace_all_in_place p (Cow.borrowed s) = Cow.owned (p s).1 := by
        simp [replace_all_in_place, Cow.text, hf]
      rw [h2] at h
      obtain ⟨u, hu⟩ := foldl_replace_all_owned ps (p s).1
      rw [hu] at h
      cases h
    · have hf' : (p s).2 = false := by simpa using hf
      have h2 : replace_all_in_place p (Cow.borrowed s) = Cow.borrowed s := by
        simp [replace_all_in_place, Cow.text, hf']
      rw [h2] at h
      exact ih s t h

/-- Shared case analysis: `patch_lua` is borrowed exactly when no pass
pattern matches the input. -/
theorem patch_lua_cases (s : List Char) :
    (anyPassMatch s = false → patch_lua s = Cow.borrowed s) ∧
    (anyPassMatch s = true → ∃ t, patch_lua s = Cow.owned t) := by
  constructor
  · intro h
    refine foldl_replace_all_borrowed passes s ?_
    intro p hp
    by_contra hc
    have hc' : (p s).2 = true := by simpa using hc
    have : passes.any (fun p => (p s).2) = true :=
      List.any_eq_true.mpr ⟨p, hp, hc'⟩
    rw [anyPassMatch] at h
    rw [this] at h
    cases h
  · intro h
    exact foldl_replace_all_any passes s h

/--
Claim C3: for every input in which none of the seven pass patterns matches,
`patch_lua` returns the borrowed (reference-identical, unallocated) input;
for every input in which at least one pass pattern matches, it returns a
freshly allocated owned string.
-/
theorem claim_C3_borrowed_vs_owned (s : List Char) :
    (anyPassMatch s = false → patch_lua s = Cow.borrowed s) ∧
    (anyPassMatch s = true → ∃ t, patch_lua s = Cow.owned t) :=
  patch_lua_cases s

/--
Claim C3 witness: `x = 1` contains no pass pattern and comes back borrowed;
`x += 1` matches the compound-assignment pattern and comes back owned.
-/
theorem claim_C3_witness :
    patch_lua "x = 1".data = Cow.borrowed "x = 1".data ∧
    ∃ t, patch_lua "x += 1".data = Cow.owned t :=
  ⟨(claim_C3_borrowed_vs_owned "x = 1".data).1 (by rfl),
   (claim_C3_borrowed_vs_owned "x += 1".data).2 (by rfl)⟩

/--
Claim C4 counterexample: `btn(x)` is matched by the button-symbol pattern
(whose closure passes the unrecognized argument through verbatim), so
`patch_lua` returns an owned value whose text is identical to the input —
`was_patched` is `true` although nothing was modified.
-/
theorem claim_C4_counterexample :
    patch_lua "btn(x)".data = Cow.owned "btn(x)".data ∧
    was_patched (patch_lua "btn(x)".data) = true := ⟨rfl, rfl⟩

/--
Claim C4 (amended): the owned-vs-borrowed distinction (`was_patched`) tracks
exactly whether some pass pattern matched, not whether the text changed: a
borrowed result always carries the unchanged input, but an owned result may
carry text identical to the input.
-/
theorem claim_C4_owned_tracks_matching (s : List Char) :
    was_patched (patch_lua s) = anyPassMatch s ∧
    (∀ t, patch_lua s = Cow.borrowed t → t = s) := by
  constructor
  · cases ha : anyPassMatch s with
    | false =>
      rw [(patch_lua_cases s).1 ha]
      rfl
    | true =>
      obtain ⟨t, ht⟩ := (patch_lua_cases s).2 ha
      rw [ht]
      rfl
  · intro t h
    exact foldl_replace_all_borrowed_inv passes s t h

/--
Claim C4 witness: concrete instances of the amended claim at the matching
input `btn(x)` and the non-matching input `x = 1`.
-/
theorem claim_C4_witness :
    was_patched (patch_lua "btn(x)".data) = anyPassMatch "btn(x)".data ∧
    "x = 1".data = "x = 1".data :=
  ⟨(claim_C4_owned_tracks_matching "btn(x)".data).1,
   (claim_C4_owned_tracks_matching "x = 1".data).2 "x = 1".data rfl⟩

/-!
## Claim C9: the command-line driver's output
-/

/--
Claim C9 (code bug): the driver's output `if` has no `else` branch, so for a
non-cartridge input (or with the `--lua-only` flag) the program prints
nothing at all instead of the transformed code.  The three conjuncts
evaluate the driver model: (1) plain Lua input, no flag — output empty,
where the claim requires `x = 1`; (2) a full cartridge with `--lua-only` —
output empty, where the claim requires the transformed code section;
(3) a full cartridge without the flag — the envelope is re-emitted around
the transformed code as the claim states.
-/
theorem claim_C9_driver_prints_nothing :
    mainOutput "x = 1".data false = [] ∧
    mainOutput "pico-8 cartridge v1\n__lua__\nx += 1\n__gfx__\n000".data true
      = [] ∧
    mainOutput "pico-8 cartridge v1\n__lua__\nx += 1\n__gfx__\n000".data false
      = "pico-8 cartridge v1\n__lua__\nx = x + (1)\n__gfx__\n000".data :=
  ⟨rfl, rfl, rfl⟩

/-!
## Claim C8: compound assignment and comment tokens
-/

/--
Claim C8 counterexample: in `a--=b` the character immediately preceding the
`-=` operator-equal pair is the first dash of the comment-introducing token
`--`, yet the compound-assignment pass matches (with target capture `a-`)
and rewrites the text.
-/
theorem claim_C8_counterexample :
    assignPass "a--=b".data = ("a- = a- - (b)".data, true) := rfl

/--
Claim C8 (amended): the compound-assignment pass never matches with a target
capture that begins with `-` or whitespace (the class `[^-\s]`); in
particular a comment token directly followed by `=`, as in the repository's
own test `--==configurations==--`, is left unchanged.  (A match whose
operator is preceded by a dash can still occur when the target starts
earlier, as the counterexample shows.)
-/
theorem claim_C8_target_guard :
    (∀ (c : Char) (rest : List Char) (r : List Char × Nat),
      assignTry (c :: rest) = some r → rustWs c = false ∧ ¬ c = '-') ∧
    assignPass "--==configurations==--".data =
      ("--==configurations==--".data, false) := by
  constructor
  · intro c rest r h
    by_cases hg : (rustWs c || c == '-') = true
    · rw [assignTry] at h
      rw [if_pos hg] at h
      cases h
    · simp only [Bool.or_eq_true, not_or] at hg
      refine ⟨by simpa using hg.1, ?_⟩
      intro hc
      subst hc
      simp at hg
  · rfl

/--
Claim C8 witness: the match on `x += 1` starts with the non-dash,
non-whitespace character `x`.
-/
theorem claim_C8_witness : rustWs 'x' = false ∧ ¬ 'x' = '-' :=
  claim_C8_target_guard.1 'x' " += 1".data ("x = x + (1)".data, 6) rfl

/-!
## Further scanner evaluation lemmas
-/

theorem takeWhile_eq_self (p : Char → Bool) (xs : List Char)
    (h : ∀ c ∈ xs, p c = true) : xs.takeWhile p = xs := by
  induction xs with
  | nil => rfl
  | cons x xs ih =>
    have hx := h x (by simp)
    simp only [List.takeWhile_cons, hx, if_true]
    rw [ih (fun d hd => h d (by simp [hd]))]

theorem scanAllF_nil (tryM : List Char → Option (List Char × Nat)) :
    ∀ fuel, scanAllF tryM fuel [] = ([], false)
  | 0 => rfl
  | fuel + 1 => by simp [scanAllF]

/-- If the pattern matches at position 0 and consumes the whole input, the
scan emits just the replacement. -/
theorem scanAll_full_match (tryM : List Char → Option (List Char × Nat))
    (cs repl : List Char) (hne : cs ≠ [])
    (h : tryM cs = some (repl, cs.length)) :
    scanAll tryM cs = (repl, true) := by
  obtain ⟨m, hm⟩ : ∃ m, cs.length = m + 1 := by
    cases cs with
    | nil => exact absurd rfl hne
    | cons c cs => exact ⟨cs.length, rfl⟩
  have h' : tryM cs = some (repl, m + 1) := by rw [h, hm]
  have hd : cs.drop (m + 1) = [] := by
    rw [← hm]; exact List.drop_length cs
  simp only [scanAll, hm, scanAllF, if_neg hne, h', Nat.succ_pos, if_true,
    hd, scanAllF_nil, List.append_nil]

/-!
## Claim C5: fractional binary-literal padding
-/

/--
Claim C5 counterexample: the five fractional bits of `0b1.00001` are *not*
padded to eight bits.  The code pads with `format!` width 4 (a minimum
width, not a multiple of four): `00001` stays five bits, parses to 1, and
the emitted literal is ` 0x1.1`.  Under the claim's procedure the bits would
be padded to `00001000`, parsing to 8, giving ` 0x1.8`.
-/
theorem claim_C5_counterexample :
    binPass " 0b1.00001".data = (" 0x1.1".data, true) := rfl

/--
Claim C5 (amended): for every binary literal with a fractional part, the
fractional bit string is right-padded with zero bits to a *minimum width of
four* bits (`format!("{:0<4}")`; fractions longer than four bits are used
as-is), interpreted as base-2, and emitted as lowercase hexadecimal digits
after the decimal point.
-/
theorem claim_C5_frac_min_width_4 (c : Char) (p1 p2 : List Char)
    (hca : asciiAlnum c = false) (hcu : (c == '_') = false)
    (hp1 : p1 ≠ []) (hp1b : ∀ d ∈ p1, d = '0' ∨ d = '1')
    (hp2 : p2 ≠ []) (hp2b : ∀ d ∈ p2, d = '0' ∨ d = '1')
    (hv1 : binVal p1 < 2 ^ 64) (hv2 : binVal (padMin4 p2) < 2 ^ 64) :
    binPass (c :: '0' :: 'b' :: (p1 ++ '.' :: p2)) =
      (c :: "0x".data ++ hexChars (binVal p1) ++
        '.' :: hexChars (binVal (padMin4 p2)), true) := by
  have hbin1 : ∀ d ∈ p1, (d == '0' || d == '1') = true := by
    intro d hd
    rcases hp1b d hd with h | h <;> simp [h]
  have hbin2 : ∀ d ∈ p2, (d == '0' || d == '1') = true := by
    intro d hd
    rcases hp2b d hd with h | h <;> simp [h]
  have htw : (p1 ++ '.' :: p2).takeWhile
      (fun d => d == '0' || d == '1' || d == '.') = p1 ++ '.' :: p2 := by
    refine takeWhile_eq_self _ _ ?_
    intro d hd
    rcases List.mem_append.mp hd with h | h
    · rcases hp1b d h with h' | h' <;> simp [h']
    · rcases List.mem_cons.mp h with h' | h'
      · simp [h']
      · rcases hp2b d h' with h'' | h'' <;> simp [h'']
  have hsplit : splitDot (p1 ++ '.' :: p2) = (p1, p2) := by
    have hsp := spanP_append (fun d => !(d == '.')) p1 ('.' :: p2)
      (by
        intro d hd
        rcases hp1b d hd with h | h <;> simp [h])
      (by simp [List.takeWhile_cons])
    simp only [spanP, Prod.mk.injEq] at hsp
    simp only [splitDot, hsp.1, hsp.2]
    rw [takeWhile_eq_self _ _ (by
      intro d hd
      rcases hp2b d hd with h | h <;> simp [h])]
  have hint : parseBinDigits p1 = some (binVal p1) := by
    simp only [parseBinDigits, if_neg hp1]
    rw [if_neg]
    · rw [if_pos hv1]
    · simp only [Bool.not_eq_true', Bool.not_eq_false]
      exact List.all_eq_true.mpr hbin1
  have hpadne : padMin4 p2 ≠ [] := by
    cases p2 with
    | nil => exact absurd rfl hp2
    | cons d ds => simp [padMin4]
  have hfrac : parseBinDigits (padMin4 p2) = some (binVal (padMin4 p2)) := by
    simp only [parseBinDigits, if_neg hpadne]
    rw [if_neg]
    · rw [if_pos hv2]
    · simp only [Bool.not_eq_true', Bool.not_eq_false]
      refine List.all_eq_true.mpr ?_
      intro d hd
      rcases List.mem_append.mp hd with h | h
      · exact hbin2 d h
      · have : d = '0' := List.eq_of_mem_replicate h
        simp [this]
  have hguard : (!asciiAlnum c && !(c == '_') && ('b' == 'b' || 'b' == 'B')) = true := by
    rw [hca, hcu]; rfl
  have hne : (p1 ++ '.' :: p2) ≠ [] := by simp
  have hbt : binTry (c :: '0' :: 'b' :: (p1 ++ '.' :: p2)) =
      some (c :: "0x".data ++ hexChars (binVal p1) ++
        '.' :: hexChars (binVal (padMin4 p2)),
        3 + (p1 ++ '.' :: p2).length) := by
    simp only [binTry, hguard, if_true, htw, if_neg hne, hsplit, hint,
      if_pos hp2, hfrac]
  have hlen : (c :: '0' :: 'b' :: (p1 ++ '.' :: p2)).length =
      3 + (p1 ++ '.' :: p2).length := by simp; omega
  refine scanAll_full_match binTry _ _ (by simp) ?_
  rw [hlen]
  exact hbt

/--
Claim C5 witness: the amended padding rule applied to ` 0b1.00001` (five
fractional bits kept as-is, value 1, hex digit `1`).
-/
theorem claim_C5_witness :
    binPass (' ' :: '0' :: 'b' :: ("1".data ++ '.' :: "00001".data)) =
      (' ' :: "0x".data ++ hexChars (binVal "1".data) ++
        '.' :: hexChars (binVal (padMin4 "00001".data)), true) :=
  claim_C5_frac_min_width_4 ' ' "1".data "00001".data rfl rfl
    (by decide) (by decide) (by decide) (by decide) (by decide) (by decide)

/-!
## Claim C1: the shorthand-conditional rewrite
-/

theorem take_len_append (xs ys : List Char) : (xs ++ ys).take xs.length = xs := by
  induction xs with
  | nil => rfl
  | cons x xs ih => simp [List.take_cons, ih]

theorem drop_len_append (xs ys : List Char) : (xs ++ ys).drop xs.length = ys := by
  induction xs with
  | nil => rfl
  | cons x xs ih => simp only [List.cons_append, List.length_cons, List.drop_succ_cons]; exact ih

theorem takeWhile_append_not (p : Char → Bool) (xs : List Char) (y : Char)
    (ys : List Char) (h1 : ∀ c ∈ xs, p c = true) (h2 : p y = false) :
    (xs ++ y :: ys).takeWhile p = xs ∧ (xs ++ y :: ys).dropWhile p = y :: ys := by
  have h := spanP_append p xs (y :: ys) h1 (takeWhile_eq_nil_of_head p y ys h2)
  simp only [spanP, Prod.mk.injEq] at h
  exact h

theorem lineScanSF_nil {γ σ : Type} (tryM : List Char → Option (γ × Nat))
    (step : σ → γ → σ × List Char) :
    ∀ fuel (a : σ), lineScanSF tryM step fuel a [] = ⟨a, [], false, []⟩
  | 0, _ => rfl
  | _ + 1, _ => by simp [lineScanSF]

/-- If the line pattern matches at position 0 and consumes the whole input,
the pass emits just the replacement. -/
theorem linePass_full_match (tryM : List Char → Option (List Char × Nat))
    (cs repl : List Char) (hne : cs ≠ [])
    (h : tryM cs = some (repl, cs.length)) :
    linePass tryM cs = (repl, true) := by
  obtain ⟨m, hm⟩ : ∃ m, cs.length = m + 1 := by
    cases cs with
    | nil => exact absurd rfl hne
    | cons c cs => exact ⟨cs.length, rfl⟩
  have h' : tryM cs = some (repl, m + 1) := by rw [h, hm]
  have hd : cs.drop (m + 1) = [] := by
    rw [← hm]; exact List.drop_length cs
  simp only [linePass, hm, lineScanSF, if_neg hne, h', Nat.succ_pos, if_true,
    hd]
  simp [breakAfterNl, lineScanSF_nil]

/-- Scanning a balanced segment never returns the depth to zero; the depth
and position advance across it. -/
theorem fmpGo_skip (cond : List Char) :
    ∀ (j : Nat), balGo j cond = true → ∀ (c : Nat), 0 < c →
      ∀ (rest : List Char) (i : Nat),
        fmpGo (cond ++ rest) i ((j : Int) + c) = fmpGo rest (i + cond.length) c := by
  induction cond with
  | nil =>
    intro j hb c _ rest i
    simp only [balGo, beq_iff_eq] at hb
    subst hb
    simp
  | cons ch cond ih =>
    intro j hb c hc rest i
    by_cases h1 : ch = '('
    · subst h1
      simp only [balGo, if_pos rfl, if_true] at hb
      simp only [List.cons_append, fmpGo, if_pos rfl, if_true, List.append_eq]
      have hcast : ((j : Int) + c) + 1 = ((j + 1 : Nat) : Int) + c := by
        push_cast; ring
      rw [hcast, ih (j + 1) hb c hc rest (i + 1)]
      congr 1
      simp [List.length_cons]
      omega
    · by_cases h2 : ch = ')'
      · subst h2
        simp only [balGo, if_neg (by decide : ¬ ')' = '('), if_pos rfl, if_true,
          Bool.and_eq_true, decide_eq_true_eq] at hb
        obtain ⟨hj, hb'⟩ := hb
        simp only [List.cons_append, fmpGo, if_neg (by decide : ¬ ')' = '('),
          if_pos rfl, if_true, List.append_eq]
        have hne : ¬((j : Int) + c - 1 = 0) := by
          omega
        rw [if_neg hne]
        have hcast : (j : Int) + c - 1 = ((j - 1 : Nat) : Int) + c := by
          omega
        rw [hcast, ih (j - 1) hb' c hc rest (i + 1)]
        congr 1
        simp [List.length_cons]
        omega
      · simp only [balGo, if_neg h1, if_neg h2] at hb
        simp only [List.cons_append, fmpGo, if_neg h1, if_neg h2,
          List.append_eq]
        rw [ih j hb c hc rest (i + 1)]
        congr 1
        simp [List.length_cons]
        omega

/-- The Delimiter Matcher on `(<cond>)<body>` with balanced `cond` finds the
closing parenthesis right after `cond`. -/
theorem find_matching_paren_balanced (cond body : List Char)
    (hb : balGo 0 cond = true) :
    find_matching_paren ('(' :: (cond ++ ')' :: body)) 0 =
      some (cond.length + 1) := by
  simp only [find_matching_paren, List.drop_zero, fmpGo, if_pos rfl, if_true]
  have h0 : (0 : Int) + 1 = ((0 : Nat) : Int) + ((1 : Nat) : Int) := by
    norm_num
  rw [h0, fmpGo_skip cond 0 hb 1 (by omega) (')' :: body) (0 + 1)]
  simp only [fmpGo, if_neg (by decide : ¬ ')' = '('), if_pos rfl, if_true]
  have h1 : (((1 : Nat) : Int) - 1 = 0) := by norm_num
  rw [if_pos h1]
  congr 1
  omega

/-- Evaluation of the pass-4 pattern on a line of the matching shape: the
captures are the indent, and the text from `(` to the end of the line. -/
theorem ifTry_shape (ws1 ws2 lrest : List Char)
    (hws1 : ∀ c ∈ ws1, rustWs c = true) (hws2 : ∀ c ∈ ws2, rustWs c = true)
    (hnl : '\n' ∉ lrest) :
    ifTry (ws1 ++ 'i' :: 'f' :: (ws2 ++ '(' :: lrest)) =
      some (ifClosure (ws1 ++ 'i' :: 'f' :: (ws2 ++ '(' :: lrest)) ws1
          ('(' :: lrest),
        ws1.length + 2 + ws2.length + ('(' :: lrest).length) := by
  have h1 := takeWhile_append_not rustWs ws1 'i' ('f' :: (ws2 ++ '(' :: lrest))
    hws1 (by decide)
  have h2 := takeWhile_append_not rustWs ws2 '(' lrest hws2 (by decide)
  have h3 : ('(' :: lrest).takeWhile (fun c => !(c == '\n')) = '(' :: lrest := by
    refine takeWhile_eq_self _ _ ?_
    intro d hd
    rcases List.mem_cons.mp hd with h | h
    · simp [h]
    · have hd' : d ≠ '\n' := fun hh => hnl (hh ▸ h)
      simp [hd']
  simp only [ifTry, h1.1, h1.2, h2.1, h2.2, h3]

/-- The pass-4 match on a whole-line input, reduced to its closure. -/
theorem ifPass_line (ws1 ws2 lrest : List Char)
    (hws1 : ∀ c ∈ ws1, rustWs c = true) (hws2 : ∀ c ∈ ws2, rustWs c = true)
    (hnl : '\n' ∉ lrest) :
    ifPass (ws1 ++ 'i' :: 'f' :: (ws2 ++ '(' :: lrest)) =
      (ifClosure (ws1 ++ 'i' :: 'f' :: (ws2 ++ '(' :: lrest)) ws1
        ('(' :: lrest), true) := by
  refine linePass_full_match ifTry _ _ (by simp) ?_
  rw [ifTry_shape ws1 ws2 lrest hws1 hws2 hnl]
  simp only [Option.some.injEq, Prod.mk.injEq]
  constructor
  · trivial
  · simp [List.length_append]
    omega

/--
Claim C1: for an input line beginning, after leading whitespace, with `if`
followed by `(` extending to the end of the line, and not already containing
the keyword `then`: (1) if `then` occurs (as a word) in the captured text the
line is emitted unchanged; (2) if no matching closing parenthesis exists the
line is emitted unchanged; (3) when the matching parenthesis is found,
`patch_lua`'s pass rewrites the line to `<indent>if <condition> then <body>
end`, with the condition the text strictly between the parentheses and the
body the rest of the line; (4) if the body contains a `--` comment marker,
the body is split there and the comment is emitted after `end`.
-/
theorem claim_C1_shorthand_if :
    (∀ ws1 ws2 lrest, (∀ c ∈ ws1, rustWs c = true) →
      (∀ c ∈ ws2, rustWs c = true) → '\n' ∉ lrest →
      hasWordThen none ('(' :: lrest) = true →
      ifPass (ws1 ++ 'i' :: 'f' :: (ws2 ++ '(' :: lrest)) =
        (ws1 ++ 'i' :: 'f' :: (ws2 ++ '(' :: lrest), true)) ∧
    (∀ ws1 ws2 lrest, (∀ c ∈ ws1, rustWs c = true) →
      (∀ c ∈ ws2, rustWs c = true) → '\n' ∉ lrest →
      hasWordThen none ('(' :: lrest) = false →
      find_matching_paren ('(' :: lrest) 0 = none →
      ifPass (ws1 ++ 'i' :: 'f' :: (ws2 ++ '(' :: lrest)) =
        (ws1 ++ 'i' :: 'f' :: (ws2 ++ '(' :: lrest), true)) ∧
    (∀ ws1 ws2 cond body, (∀ c ∈ ws1, rustWs c = true) →
      (∀ c ∈ ws2, rustWs c = true) → '\n' ∉ cond → '\n' ∉ body →
      balGo 0 cond = true →
      hasWordThen none ('(' :: (cond ++ ')' :: body)) = false →
      firstDashDash (trimStartWs body) = none →
      ifPass (ws1 ++ 'i' :: 'f' :: (ws2 ++ '(' :: (cond ++ ')' :: body))) =
        (ws1 ++ "if ".data ++ cond ++ " then ".data ++ trimStartWs body ++
          " end".data, true)) ∧
    (∀ ws1 ws2 cond body k, (∀ c ∈ ws1, rustWs c = true) →
      (∀ c ∈ ws2, rustWs c = true) → '\n' ∉ cond → '\n' ∉ body →
      balGo 0 cond = true →
      hasWordThen none ('(' :: (cond ++ ')' :: body)) = false →
      firstDashDash (trimStartWs body) = some k →
      ifPass (ws1 ++ 'i' :: 'f' :: (ws2 ++ '(' :: (cond ++ ')' :: body))) =
        (ws1 ++ "if ".data ++ cond ++ " then ".data ++
          trimEndWs ((trimStartWs body).take k) ++ " end ".data ++
          (trimStartWs body).drop k, true)) := by
  have hnl_line : ∀ (cond body : List Char), '\n' ∉ cond → '\n' ∉ body →
      '\n' ∉ cond ++ ')' :: body := by
    intro cond body hc hb hmem
    rcases List.mem_append.mp hmem with h | h
    · exact hc h
    · rcases List.mem_cons.mp h with h | h
      · exact absurd h (by decide)
      · exact hb h
  have htake : ∀ (cond body : List Char),
      (('(' :: (cond ++ ')' :: body)).take (cond.length + 1)).drop 1 = cond := by
    intro cond body
    rw [List.take_succ_cons, take_len_append, List.drop_succ_cons,
      List.drop_zero]
  have hdrop : ∀ (cond body : List Char),
      ('(' :: (cond ++ ')' :: body)).drop (cond.length + 1 + 1) = body := by
    intro cond body
    rw [List.drop_succ_cons]
    rw [show cond ++ ')' :: body = (cond ++ [')']) ++ body from by simp]
    rw [show cond.length + 1 = (cond ++ [')']).length from by simp]
    exact drop_len_append _ _
  refine ⟨?_, ?_, ?_, ?_⟩
  · intro ws1 ws2 lrest hws1 hws2 hnl hthen
    rw [ifPass_line ws1 ws2 lrest hws1 hws2 hnl]
    simp only [ifClosure, hthen, if_true]
  · intro ws1 ws2 lrest hws1 hws2 hnl hthen hfmp
    rw [ifPass_line ws1 ws2 lrest hws1 hws2 hnl]
    simp only [ifClosure, hthen, hfmp, Bool.false_eq_true, if_false]
  · intro ws1 ws2 cond body hws1 hws2 hcnl hbnl hb hthen hdd
    rw [ifPass_line ws1 ws2 _ hws1 hws2 (hnl_line cond body hcnl hbnl)]
    have hfmp := find_matching_paren_balanced cond body hb
    simp only [ifClosure, hthen, hfmp, Bool.false_eq_true, if_false,
      htake cond body, hdrop cond body, hdd]
  · intro ws1 ws2 cond body k hws1 hws2 hcnl hbnl hb hthen hdd
    rw [ifPass_line ws1 ws2 _ hws1 hws2 (hnl_line cond body hcnl hbnl)]
    have hfmp := find_matching_paren_balanced cond body hb
    simp only [ifClosure, hthen, hfmp, Bool.false_eq_true, if_false,
      htake cond body, hdrop cond body, hdd]

/--
Claim C1 witness: the repository's own example `if (not b) i = 1` is
rewritten to `if not b then i = 1 end`, and `if (a` (no matching closing
parenthesis) is passed through unchanged.
-/
theorem claim_C1_witness :
    ifPass ([] ++ 'i' :: 'f' :: ([' '] ++ '(' ::
        ("not b".data ++ ')' :: " i = 1".data))) =
      ([] ++ "if ".data ++ "not b".data ++ " then ".data ++
        trimStartWs " i = 1".data ++ " end".data, true) ∧
    ifPass ([] ++ 'i' :: 'f' :: ([' '] ++ '(' :: "a".data)) =
      ([] ++ 'i' :: 'f' :: ([' '] ++ '(' :: "a".data), true) :=
  ⟨claim_C1_shorthand_if.2.2.1 [] [' '] "not b".data " i = 1".data
      (by decide) (by decide) (by decide) (by decide) (by decide) (by decide)
      (by decide),
    claim_C1_shorthand_if.2.1 [] [' '] "a".data
      (by decide) (by decide) (by decide) (by decide) (by decide)⟩

/-!
## Claim C2: compound-assignment expansion

The pattern's expression capture is lazy and stops at the first terminator
(`\bend`, `\belse`, `;`, `--`, end of line).  The lemmas below show that on
an expression free of terminators the capture runs to the end of the text.
-/

theorem findSub_none_drop (pat : List Char) :
    ∀ cs, findSub pat cs = none → ∀ i, pat.isPrefixOf (cs.drop i) = false := by
  intro cs
  induction cs with
  | nil =>
    intro h i
    rw [List.drop_nil]
    simp only [findSub] at h
    by_cases hp : pat.isPrefixOf ([] : List Char) = true
    · rw [if_pos hp] at h; cases h
    · exact Bool.eq_false_iff.mpr hp
  | cons c cs ih =>
    intro h i
    simp only [findSub] at h
    by_cases hp : pat.isPrefixOf (c :: cs) = true
    · rw [if_pos hp] at h; cases h
    · rw [if_neg hp] at h
      have h2 : findSub pat cs = none := by
        cases hf : findSub pat cs with
        | none => rfl
        | some v => rw [hf] at h; cases h
      cases i with
      | zero => exact Bool.eq_false_iff.mpr hp
      | succ i => rw [List.drop_succ_cons]; exact ih h2 i

theorem getLast?_mem_self (l : List Char) (a : Char) (h : l.getLast? = some a) :
    a ∈ l := by
  cases l with
  | nil => cases h
  | cons c tl =>
    have hne : (c :: tl) ≠ ([] : List Char) := by simp
    rw [List.getLast?_eq_getLast _ hne] at h
    have := Option.some.inj h
    rw [← this]
    exact List.getLast_mem hne

theorem getLast?_drop (l : List Char) :
    ∀ j, l.drop j ≠ [] → (l.drop j).getLast? = l.getLast? := by
  induction l with
  | nil => intro j h; rw [List.drop_nil] at h; exact absurd rfl h
  | cons c tl ih =>
    intro j h
    cases j with
    | zero => rfl
    | succ j =>
      rw [List.drop_succ_cons] at h ⊢
      have htl : tl ≠ [] := by
        intro hh
        rw [hh, List.drop_nil] at h
        exact h rfl
      rw [ih j h]
      cases tl with
      | nil => exact absurd rfl htl
      | cons b m => exact (List.getLast?_cons_cons).symm

/-- On a text whose last character is not whitespace, no suffix consists of
whitespace only. -/
theorem dropWhile_ws_ne_nil (e : List Char)
    (helast : rustWs (e.getLastD ' ') = false) :
    ∀ j, e.drop j ≠ [] → (e.drop j).dropWhile rustWs ≠ [] := by
  intro j hne hcon
  have hall : ∀ x ∈ e.drop j, rustWs x = true :=
    List.dropWhile_eq_nil_iff.mp hcon
  have hlast : (e.drop j).getLast? = e.getLast? := getLast?_drop e j hne
  obtain ⟨c, hc⟩ : ∃ c, (e.drop j).getLast? = some c := by
    cases hgl : (e.drop j).getLast? with
    | none => rw [List.getLast?_eq_none_iff] at hgl; exact absurd hgl hne
    | some c => exact ⟨c, rfl⟩
  have hce : e.getLast? = some c := by rw [← hlast, hc]
  have hgd : e.getLastD ' ' = c := by
    rw [List.getLastD_eq_getLast?, hce]
    rfl
  have hmem : c ∈ e.drop j := getLast?_mem_self _ _ hc
  have := hall c hmem
  rw [hgd] at helast
  rw [this] at helast
  cases helast

/-- All terminator alternatives fail at a position whose suffix is nonempty,
starts off a newline, and is not the start of `end`, `else`, `;` or `--`. -/
theorem group4Alt_none (prev : Char) (t : List Char)
    (h1 : "end".data.isPrefixOf t = false)
    (h2 : "else".data.isPrefixOf t = false)
    (h3 : ";".data.isPrefixOf t = false)
    (h4 : "--".data.isPrefixOf t = false)
    (h5 : t ≠ []) (h6 : t.head? ≠ some '\n') :
    group4Alt prev t = none := by
  simp only [group4Alt, h1, h2, h3, h4, Bool.false_and, Bool.false_eq_true,
    if_false]
  rw [if_neg]
  simp only [Bool.or_eq_true, decide_eq_true_eq, beq_iff_eq]
  push_neg
  exact ⟨h5, h6⟩

theorem group4Loop_none (prev : Char) (m r : List Char)
    (hall : ∀ k, k ≤ m.length → ∀ pv, group4Alt pv (m.drop k ++ r) = none) :
    ∀ i, i ≤ m.length → group4Loop prev m r i = none := by
  intro i
  induction i with
  | zero =>
    intro _
    have h := hall 0 (by omega) prev
    simpa [group4Loop] using h
  | succ i ih =>
    intro hi
    simp only [group4Loop]
    rw [hall (i + 1) hi (m.getD i prev)]
    exact ih (by omega)

theorem group4_none (prev : Char) (s : List Char)
    (halt : ∀ k, k ≤ (s.takeWhile rustWs).length → ∀ pv,
      group4Alt pv (s.drop k) = none) :
    group4 prev s = none := by
  simp only [group4]
  refine group4Loop_none prev _ _ ?_ _ (le_refl _)
  intro k hk pv
  have hsplit : s.takeWhile rustWs ++ s.dropWhile rustWs = s :=
    List.takeWhile_append_dropWhile rustWs s
  have hdr : (s.takeWhile rustWs).drop k ++ s.dropWhile rustWs = s.drop k := by
    conv_rhs => rw [← hsplit]
    rw [List.drop_append_of_le_length hk]
  rw [hdr]
  exact halt k hk pv

/-- On an expression free of terminator tokens, with no newline characters
and a non-whitespace last character, the lazy capture 3 extends to the end
of the text and the terminator group matches via the end-of-line assertion
with an empty capture 4. -/
theorem lazy3_to_end (e : List Char)
    (hchars : ∀ c ∈ e, ¬ c = '\n' ∧ ¬ c = '\r')
    (helast : rustWs (e.getLastD ' ') = false)
    (hend : findSub "end".data e = none)
    (helse : findSub "else".data e = none)
    (hsemi : findSub ";".data e = none)
    (hdd : findSub "--".data e = none) :
    ∀ s, (∃ j, s = e.drop j) → s ≠ [] →
      ∀ acc, lazy3 acc s = some (acc ++ s, [], []) := by
  intro s
  induction s with
  | nil => intro _ hne; exact absurd rfl hne
  | cons c tl ih =>
    rintro ⟨j, hs⟩ _ acc
    have hcmem : c ∈ e := by
      have hdj : c ∈ e.drop j := by rw [← hs]; simp
      exact List.mem_of_mem_drop hdj
    have hcond : (c == '\n' || c == '\r') = false := by
      have h1 := (hchars c hcmem).1
      have h2 := (hchars c hcmem).2
      simp [h1, h2]
    have htl : tl = e.drop (j + 1) := by
      have h1 : (e.drop j).drop 1 = e.drop (j + 1) := by
        rw [List.drop_drop]
      rw [← hs] at h1
      simpa using h1
    simp only [lazy3, hcond, Bool.false_eq_true, if_false]
    by_cases htle : tl = []
    · subst htle
      rfl
    · have hg4 : group4 c tl = none := by
        refine group4_none c tl ?_
        intro k hk pv
        have hdw : tl.dropWhile rustWs ≠ [] := by
          have h := dropWhile_ws_ne_nil e helast (j + 1)
            (by rw [← htl]; exact htle)
          rw [← htl] at h
          exact h
        have hlen : (tl.takeWhile rustWs).length < tl.length := by
          have hsum : (tl.takeWhile rustWs).length +
              (tl.dropWhile rustWs).length = tl.length := by
            conv_rhs => rw [← List.takeWhile_append_dropWhile rustWs tl]
            rw [List.length_append]
          have hz : (tl.dropWhile rustWs).length ≠ 0 := by
            intro hz
            exact hdw (List.length_eq_zero.mp hz)
          omega
        have hkne : tl.drop k ≠ [] := by
          intro hz
          have := List.drop_eq_nil_iff.mp hz
          omega
        have hdropk : tl.drop k = e.drop (j + 1 + k) := by
          rw [htl, List.drop_drop]
        refine group4Alt_none pv _ ?_ ?_ ?_ ?_ hkne ?_
        · rw [hdropk]; exact findSub_none_drop _ e hend _
        · rw [hdropk]; exact findSub_none_drop _ e helse _
        · rw [hdropk]; exact findSub_none_drop _ e hsemi _
        · rw [hdropk]; exact findSub_none_drop _ e hdd _
        · intro hh
          cases hdk : tl.drop k with
          | nil => exact hkne hdk
          | cons x xs =>
            rw [hdk] at hh
            simp only [List.head?_cons, Option.some.injEq] at hh
            have hxmem : x ∈ e := by
              have hx1 : x ∈ tl.drop k := by rw [hdk]; simp
              have hx2 : x ∈ e.drop (j + 1) := by
                rw [← htl]
                exact List.mem_of_mem_drop hx1
              exact List.mem_of_mem_drop hx2
            exact (hchars x hxmem).1 hh
      rw [hg4]
      rw [ih ⟨j + 1, htl⟩ htle (acc ++ [c])]
      simp

set_option maxRecDepth 20000 in
/-- No white-space code point is a word character. -/
theorem ws_not_word (n : Nat) (h : rustWsN n = true) : wordCharN n = false := by
  simp only [rustWsN, Bool.or_eq_true, Bool.and_eq_true, decide_eq_true_eq,
    beq_iff_eq] at h
  rcases h with ((((((((((⟨h1, h2⟩ | h) | h) | h) | h) | ⟨h1, h2⟩) | h) | h)
    | h) | h) | h)
  · interval_cases n <;> decide
  · subst h; decide
  · subst h; decide
  · subst h; decide
  · subst h; decide
  · interval_cases n <;> decide
  · subst h; decide
  · subst h; decide
  · subst h; decide
  · subst h; decide
  · subst h; decide

theorem rustWs_not_wordChar (c : Char) (h : rustWs c = true) :
    wordChar c = false :=
  ws_not_word c.toNat h

theorem getD_mem (l : List Char) : ∀ i d, i < l.length → l.getD i d ∈ l := by
  induction l with
  | nil => intro i d h; simp at h
  | cons a l ih =>
    intro i d h
    cases i with
    | zero => simp [List.getD]
    | succ i =>
      simp only [List.getD_cons_succ]
      exact List.mem_cons_of_mem a (ih i d (by simpa using h))

theorem takeWhile_append_all (p : Char → Bool) (a b : List Char)
    (h : ∀ x ∈ a, p x = true) :
    (a ++ b).takeWhile p = a ++ b.takeWhile p ∧
    (a ++ b).dropWhile p = b.dropWhile p := by
  induction a with
  | nil => simp
  | cons x a ih =>
    have hx := h x (by simp)
    have ih' := ih (fun y hy => h y (by simp [hy]))
    constructor
    · simp [List.cons_append, List.takeWhile_cons, hx, ih'.1]
    · simp [List.cons_append, List.dropWhile_cons, hx, ih'.2]

theorem takeWhile_append_stop (p : Char → Bool) (a b : List Char)
    (h : a.dropWhile p ≠ []) :
    (a ++ b).takeWhile p = a.takeWhile p ∧
    (a ++ b).dropWhile p = a.dropWhile p ++ b := by
  induction a with
  | nil => simp at h
  | cons x a ih =>
    cases hx : p x with
    | true =>
      have h' : a.dropWhile p ≠ [] := by
        simpa [List.dropWhile_cons, hx] using h
      have ih' := ih h'
      simp [List.cons_append, List.takeWhile_cons, List.dropWhile_cons, hx,
        ih'.1, ih'.2]
    | false =>
      simp [List.cons_append, List.takeWhile_cons, List.dropWhile_cons, hx]

theorem dropWhile_eq_drop (p : Char → Bool) (l : List Char) :
    l.dropWhile p = l.drop (l.takeWhile p).length := by
  induction l with
  | nil => rfl
  | cons x l ih =>
    cases hx : p x with
    | true => simp [List.dropWhile_cons, List.takeWhile_cons, hx, ih]
    | false => simp [List.dropWhile_cons, List.takeWhile_cons, hx]

theorem noTermAt_spec (e tail : List Char) (h : noTermAt e tail = true) :
    ∀ i, 1 ≤ i → i < e.length →
      "end".data.isPrefixOf (e.drop i ++ tail) = false ∧
      "else".data.isPrefixOf (e.drop i ++ tail) = false ∧
      ";".data.isPrefixOf (e.drop i ++ tail) = false ∧
      "--".data.isPrefixOf (e.drop i ++ tail) = false := by
  intro i h1 h2
  have hmem : i ∈ List.range e.length := List.mem_range.mpr h2
  have hi := List.all_eq_true.mp h i hmem
  simp only [Bool.or_eq_true, decide_eq_true_eq, Bool.and_eq_true,
    Bool.not_eq_true'] at hi
  rcases hi with hz | hc
  · omega
  · exact ⟨hc.1.1.1, hc.1.1.2, hc.1.2, hc.2⟩

theorem noOpEq_drop (l : List Char) (h : noOpEq l = true) :
    ∀ i x y tl, l.drop i = x :: y :: tl → (opChar x && y == '=') = false := by
  induction l with
  | nil => intro i x y tl hd; rw [List.drop_nil] at hd; cases hd
  | cons a l ih =>
    intro i x y tl hd
    cases i with
    | zero =>
      rw [List.drop_zero] at hd
      injection hd with h1 h2
      subst h1
      subst h2
      simp only [noOpEq, Bool.and_eq_true, Bool.not_eq_true'] at h
      exact h.1
    | succ i =>
      rw [List.drop_succ_cons] at hd
      have hl : noOpEq l = true := by
        cases l with
        | nil => rfl
        | cons b tl' =>
          simp only [noOpEq, Bool.and_eq_true] at h
          exact h.2
      exact ih hl i x y tl hd

/-- The terminator alternation accepts a bare `end` after a non-word
character. -/
theorem group4Alt_end (pv : Char) (hpv : wordChar pv = false) :
    group4Alt pv "end".data = some ("end".data, []) := by
  unfold group4Alt
  rw [hpv]
  decide

theorem group4Alt_else (pv : Char) (hpv : wordChar pv = false) :
    group4Alt pv "else".data = some ("else".data, []) := by
  unfold group4Alt
  rw [hpv]
  decide

theorem group4Alt_semi (pv : Char) :
    group4Alt pv ";".data = some ([';'], []) := by
  have h1 : "end".data.isPrefixOf ";".data = false := by decide
  have h2 : "else".data.isPrefixOf ";".data = false := by decide
  have h3 : ";".data.isPrefixOf ";".data = true := by decide
  simp only [group4Alt, h1, h2, h3, Bool.false_and, Bool.false_eq_true,
    if_false, if_true]
  rfl

theorem group4Alt_dd (pv : Char) :
    group4Alt pv "--".data = some (['-', '-'], []) := by
  have h1 : "end".data.isPrefixOf "--".data = false := by decide
  have h2 : "else".data.isPrefixOf "--".data = false := by decide
  have h3 : ";".data.isPrefixOf "--".data = false := by decide
  have h4 : "--".data.isPrefixOf "--".data = true := by decide
  simp only [group4Alt, h1, h2, h3, h4, Bool.false_and, Bool.false_eq_true,
    if_false, if_true]
  rfl

/-- Capture 4 matches a run of whitespace followed by one of the terminator
tokens `end`, `else`, `;`, `--` ending the text, provided the required word
boundary holds when the whitespace run is empty. -/
theorem group4_boundary (pv : Char) (ws4 tok : List Char)
    (hw4 : ∀ c ∈ ws4, rustWs c = true)
    (htok : tok = "end".data ∨ tok = "else".data ∨ tok = ";".data ∨
      tok = "--".data)
    (hbv : ws4 = [] → (tok = "end".data ∨ tok = "else".data) →
      wordChar pv = false) :
    group4 pv (ws4 ++ tok) = some (ws4 ++ tok, []) := by
  have hthead : ∃ y ys, tok = y :: ys ∧ rustWs y = false := by
    rcases htok with h | h | h | h <;> subst h
    · exact ⟨'e', _, rfl, by decide⟩
    · exact ⟨'e', _, rfl, by decide⟩
    · exact ⟨';', _, rfl, by decide⟩
    · exact ⟨'-', _, rfl, by decide⟩
  obtain ⟨y, ys, hys, hyws⟩ := hthead
  have halt : ∀ pv', (wordChar pv' = false ∨ tok = ";".data ∨
      tok = "--".data) → group4Alt pv' tok = some (tok, []) := by
    intro pv' hpv'
    rcases htok with h | h | h | h <;> subst h
    · rcases hpv' with hh | hh | hh
      · exact group4Alt_end pv' hh
      · exact absurd hh (by decide)
      · exact absurd hh (by decide)
    · rcases hpv' with hh | hh | hh
      · exact group4Alt_else pv' hh
      · exact absurd hh (by decide)
      · exact absurd hh (by decide)
    · exact group4Alt_semi pv'
    · exact group4Alt_dd pv'
  have hsplit := takeWhile_append_not rustWs ws4 y ys hw4 hyws
  rw [hys]
  rw [hys] at halt hbv
  simp only [group4, hsplit.1, hsplit.2]
  cases ws4 with
  | nil =>
    have hside : wordChar pv = false ∨ y :: ys = ";".data ∨
        y :: ys = "--".data := by
      rcases htok with h | h | h | h <;> rw [hys] at h
      · exact Or.inl (hbv rfl (Or.inl h))
      · exact Or.inl (hbv rfl (Or.inr h))
      · exact Or.inr (Or.inl h)
      · exact Or.inr (Or.inr h)
    have ha := halt pv hside
    simp only [List.length_nil, group4Loop, List.nil_append, ha]
  | cons a as =>
    have hlt : as.length < (a :: as).length := by simp
    have hmem := getD_mem (a :: as) as.length pv hlt
    have hpw : wordChar ((a :: as).getD as.length pv) = false :=
      rustWs_not_wordChar _ (hw4 _ hmem)
    have ha := halt ((a :: as).getD as.length pv) (Or.inl hpw)
    have hdrop : (a :: as).drop (as.length + 1) = [] := by
      rw [← List.length_cons a as]
      exact List.drop_length _
    have htake : (a :: as).take (as.length + 1) = a :: as := by
      rw [← List.length_cons a as]
      exact List.take_length _
    simp only [List.length_cons, group4Loop, hdrop, List.nil_append, ha,
      htake]

/-- Inside an expression with no terminator occurrence, no non-whitespace
last character, and no newline, capture 4 fails at every interior position,
also against the appended tail. -/
theorem group4_none_tail (e T : List Char)
    (hechars : ∀ c ∈ e, ¬ c = '\n' ∧ ¬ c = '\r')
    (helast : rustWs (e.getLastD ' ') = false)
    (hterm : noTermAt e T = true) :
    ∀ j, 1 ≤ j → j < e.length → ∀ pv, group4 pv (e.drop j ++ T) = none := by
  intro j hj1 hj2 pv
  have hne : e.drop j ≠ [] := by
    intro hz
    have := List.drop_eq_nil_iff.mp hz
    omega
  have hdw : (e.drop j).dropWhile rustWs ≠ [] :=
    dropWhile_ws_ne_nil e helast j hne
  have hsplit := takeWhile_append_stop rustWs (e.drop j) T hdw
  have hlen : ((e.drop j).takeWhile rustWs).length < (e.drop j).length := by
    have hsum : ((e.drop j).takeWhile rustWs).length +
        ((e.drop j).dropWhile rustWs).length = (e.drop j).length := by
      conv_rhs => rw [← List.takeWhile_append_dropWhile rustWs (e.drop j)]
      rw [List.length_append]
    have hz : ((e.drop j).dropWhile rustWs).length ≠ 0 := by
      intro hz
      exact hdw (List.length_eq_zero.mp hz)
    omega
  have hdlen : (e.drop j).length = e.length - j := by
    rw [List.length_drop]
  refine group4_none pv _ ?_
  intro k hk pv'
  rw [hsplit.1] at hk
  have hjk2 : j + k < e.length := by omega
  have hdropk : (e.drop j ++ T).drop k = e.drop (j + k) ++ T := by
    rw [List.drop_append_of_le_length (by omega), List.drop_drop]
  rw [hdropk]
  have hkne : e.drop (j + k) ≠ [] := by
    intro hz
    have := List.drop_eq_nil_iff.mp hz
    omega
  have hspec := noTermAt_spec e T hterm (j + k) (by omega) hjk2
  refine group4Alt_none pv' _ hspec.1 hspec.2.1 hspec.2.2.1 hspec.2.2.2 ?_ ?_
  · cases hdk : e.drop (j + k) with
    | nil => exact absurd hdk hkne
    | cons x xs => simp
  · cases hdk : e.drop (j + k) with
    | nil => exact absurd hdk hkne
    | cons x xs =>
      intro hh
      simp only [List.cons_append, List.head?_cons, Option.some.injEq] at hh
      have hxmem : x ∈ e := by
        have hx1 : x ∈ e.drop (j + k) := by rw [hdk]; simp
        exact List.mem_of_mem_drop hx1
      exact (hechars x hxmem).1 hh

/-- The lazy capture 3 consumes exactly the terminator-free expression when
the trailing text begins with a terminator: the capture stops right before
the tail `T`, which capture 4 swallows in full. -/
theorem lazy3_cut (e T g4 : List Char)
    (hchars : ∀ c ∈ e, ¬ c = '\n' ∧ ¬ c = '\r')
    (hfail : ∀ j, 1 ≤ j → j < e.length → ∀ pv,
      group4 pv (e.drop j ++ T) = none)
    (hsucc : ∀ pv, e.getLast? = some pv → group4 pv T = some (g4, [])) :
    ∀ s, (∃ j, s = e.drop j) → s ≠ [] →
      ∀ acc, lazy3 acc (s ++ T) = some (acc ++ s, g4, []) := by
  intro s
  induction s with
  | nil => intro _ hne; exact absurd rfl hne
  | cons c tl ih =>
    rintro ⟨j, hs⟩ _ acc
    have hcmem : c ∈ e := by
      have hdj : c ∈ e.drop j := by rw [← hs]; simp
      exact List.mem_of_mem_drop hdj
    have hcond : (c == '\n' || c == '\r') = false := by
      have h1 := (hchars c hcmem).1
      have h2 := (hchars c hcmem).2
      simp [h1, h2]
    have htl : tl = e.drop (j + 1) := by
      have h1 : (e.drop j).drop 1 = e.drop (j + 1) := by rw [List.drop_drop]
      rw [← hs] at h1
      simpa using h1
    simp only [List.cons_append, lazy3, hcond, Bool.false_eq_true, if_false]
    by_cases htle : tl = []
    · subst htle
      have hlast : e.getLast? = some c := by
        have hne : e.drop j ≠ [] := by rw [← hs]; simp
        have h1 : (e.drop j).getLast? = e.getLast? := getLast?_drop e j hne
        rw [← hs] at h1
        have h2 : ([c] : List Char).getLast? = some c := rfl
        rw [h2] at h1
        exact h1.symm
      simp only [List.append_eq, List.nil_append]
      rw [hsucc c hlast]
    · have hjlt : j + 1 < e.length := by
        by_contra hge
        push_neg at hge
        have hz : e.drop (j + 1) = [] := List.drop_eq_nil_iff.mpr hge
        rw [← htl] at hz
        exact htle hz
      have hg4 : group4 c (tl ++ T) = none := by
        rw [htl]
        exact hfail (j + 1) (by omega) hjlt c
      simp only [List.append_eq]
      rw [hg4]
      rw [ih ⟨j + 1, htl⟩ htle (acc ++ [c])]
      simp

theorem drop_len_append_add (a : List Char) : ∀ (b : List Char) (n : Nat),
    (a ++ b).drop (a.length + n) = b.drop n := by
  induction a with
  | nil => intro b n; simp
  | cons x a ih =>
    intro b n
    simp only [List.cons_append, List.length_cons]
    rw [show a.length + 1 + n = (a.length + n) + 1 by omega]
    rw [List.drop_succ_cons]
    exact ih b n

/-- The full-target variant fails when the first two characters after the
intervening whitespace are not an operator directly followed by `=`. -/
theorem assignFullK_none (w r1 : List Char)
    (h : ∀ x y tl, r1.dropWhile rustWs = x :: y :: tl →
      (opChar x && y == '=') = false) :
    assignFullK w r1 = none := by
  simp only [assignFullK]
  split
  · rename_i op tl heq
    have h2 := h op '=' tl heq
    have h3 : opChar op = false := by simpa using h2
    rw [if_neg (by simp [h3])]
  · rfl

/-- A backtracked target split fails when the two characters at the split
point are not an operator directly followed by `=`. -/
theorem assignAtK_none (w r1 : List Char) (k : Nat)
    (h : ∀ x y tl, w.drop k = x :: y :: tl →
      (opChar x && y == '=') = false) :
    assignAtK w r1 k = none := by
  simp only [assignAtK]
  split
  · rename_i op tl heq
    have h2 := h op '=' tl heq
    have h3 : opChar op = false := by simpa using h2
    rw [if_neg (by simp [h3])]
  · rfl

/-- Backtracking of the target's `\S*` passes over a run of failing split
points without effect. -/
theorem assignBack_descend (w r1 : List Char) (kt : Nat)
    (hfail : ∀ k', kt < k' → assignAtK w r1 k' = none) :
    ∀ kk, kt ≤ kk → assignBack w r1 kk = assignBack w r1 kt := by
  intro kk
  induction kk with
  | zero =>
    intro h
    have hz : kt = 0 := by omega
    rw [hz]
  | succ k ih =>
    intro h
    rcases Nat.eq_or_lt_of_le h with heq | hlt
    · rw [heq]
    · have hk : kt ≤ k := by omega
      simp only [assignBack]
      rw [hfail (k + 1) (by omega)]
      exact ih hk

/-- A spaced occurrence `target op= expr` whose expression is free of
terminating tokens is rewritten with the expression running to the end of
the text (the `$` terminator). -/
theorem assignPass_spaced_eol (t : List Char) (op : Char) (e : List Char)
    (hop : opChar op = true)
    (ht : t ≠ []) (htw : ∀ c ∈ t, rustWs c = false)
    (hth : t.headD ' ' ≠ '-')
    (he : e ≠ [])
    (hechars : ∀ c ∈ e, ¬ c = '\n' ∧ ¬ c = '\r')
    (hehead : rustWs (e.headD ' ') = false)
    (helast : rustWs (e.getLastD ' ') = false)
    (hend : findSub "end".data e = none)
    (helse : findSub "else".data e = none)
    (hsemi : findSub ";".data e = none)
    (hdd : findSub "--".data e = none) :
    assignPass (t ++ ' ' :: op :: '=' :: ' ' :: e) =
      (t ++ " = ".data ++ t ++ [' ', op, ' ', '('] ++ e ++ [')'], true) := by
  obtain ⟨c, t', hct⟩ : ∃ c t', t = c :: t' := by
    cases t with
    | nil => exact absurd rfl ht
    | cons c t' => exact ⟨c, t', rfl⟩
  subst hct
  obtain ⟨d, e', hde⟩ : ∃ d e', e = d :: e' := by
    cases e with
    | nil => exact absurd rfl he
    | cons d e' => exact ⟨d, e', rfl⟩
  have hcws : rustWs c = false := htw c (by simp)
  have hcd : ¬ c = '-' := by simpa using hth
  have hdws : rustWs d = false := by
    have := hehead
    rw [hde] at this
    simpa using this
  have hopws : rustWs op = false := by
    simp only [opChar, Bool.or_eq_true, beq_iff_eq] at hop
    rcases hop with (((h | h) | h) | h) | h <;> subst h <;> rfl
  have hlazy : lazy3 [] e = some (e, [], []) :=
    lazy3_to_end e hechars helast hend helse hsemi hdd e ⟨0, by simp⟩ he []
  have hsp : rustWs ' ' = true := by decide
  have hw := takeWhile_append_not (fun x => !rustWs x) t' ' '
    (op :: '=' :: ' ' :: e)
    (fun x hx => by
      have hnx : rustWs x = false := htw x (List.mem_cons_of_mem c hx)
      simp [hnx])
    (by decide)
  have hws2 : (' ' :: op :: '=' :: ' ' :: e).takeWhile rustWs = [' '] := by
    simp [List.takeWhile_cons, hopws, hsp]
  have hws2' : (' ' :: op :: '=' :: ' ' :: e).dropWhile rustWs =
      op :: '=' :: ' ' :: e := by
    simp [List.dropWhile_cons, hopws, hsp]
  have hbw : (' ' :: e).takeWhile rustWs = [' '] := by
    rw [hde]
    simp [List.takeWhile_cons, hdws, hsp]
  have hbw' : (' ' :: e).dropWhile rustWs = e := by
    rw [hde]
    simp [List.dropWhile_cons, hdws, hsp]
  have hbl : bLoop [' '] e 1 = some (e, [], [], 1 + e.length) := by
    simp only [bLoop, List.drop_succ_cons, List.drop_nil, List.nil_append,
      hlazy, List.length_nil]
    norm_num
  have htail : tailMatch (' ' :: e) = some (e, [], [], 1 + e.length) := by
    simp only [tailMatch, hbw, hbw']
    rw [show ([' '] : List Char).length = 1 from rfl]
    exact hbl
  have hfull : assignFullK (c :: t') (' ' :: op :: '=' :: ' ' :: e) =
      some (mkAssign (c :: t') op e [],
        (c :: t').length + 1 + 2 + (1 + e.length)) := by
    simp only [assignFullK, hws2, hws2', hop, if_true, htail]
    rw [show ([' '] : List Char).length = 1 from rfl]
  have htry : assignTry (c :: (t' ++ ' ' :: op :: '=' :: ' ' :: e)) =
      some (mkAssign (c :: t') op e [],
        (c :: t').length + 1 + 2 + (1 + e.length)) := by
    simp only [assignTry]
    rw [if_neg (by simp [hcws, hcd])]
    simp only [hw.1, hw.2, hfull]
  have hinput : (c :: t') ++ ' ' :: op :: '=' :: ' ' :: e =
      c :: (t' ++ ' ' :: op :: '=' :: ' ' :: e) := by simp
  rw [hinput]
  refine scanAll_full_match assignTry _ _ (by simp) ?_
  rw [htry]
  simp only [Option.some.injEq, Prod.mk.injEq]
  constructor
  · simp [mkAssign]
  · simp [List.length_append, List.length_cons]
    omega

theorem dropWhile_dropWhile_drop (p q : Char → Bool) (l : List Char) :
    ∃ I, (l.dropWhile p).dropWhile q = l.drop I := by
  rw [dropWhile_eq_drop q (l.dropWhile p), dropWhile_eq_drop p l,
    List.drop_drop]
  exact ⟨_, rfl⟩

/-- A spaced occurrence `target op= expr` whose expression is cut short by a
terminator token `end`, `else`, `;` or `--`: the expression capture stops
right before the (possibly whitespace-preceded) terminator, which is
re-emitted after the closing parenthesis. -/
theorem assignPass_spaced_term (t : List Char) (op : Char)
    (e ws4 tok : List Char)
    (hop : opChar op = true)
    (ht : t ≠ []) (htw : ∀ c ∈ t, rustWs c = false)
    (hth : t.headD ' ' ≠ '-')
    (he : e ≠ [])
    (hechars : ∀ c ∈ e, ¬ c = '\n' ∧ ¬ c = '\r')
    (hehead : rustWs (e.headD ' ') = false)
    (helast : rustWs (e.getLastD ' ') = false)
    (hw4 : ∀ c ∈ ws4, rustWs c = true)
    (htok : tok = "end".data ∨ tok = "else".data ∨ tok = ";".data ∨
      tok = "--".data)
    (hbv : ws4 = [] → (tok = "end".data ∨ tok = "else".data) →
      wordChar (e.getLastD ' ') = false)
    (hterm : noTermAt e (ws4 ++ tok) = true) :
    assignPass (t ++ ' ' :: op :: '=' :: ' ' :: (e ++ (ws4 ++ tok))) =
      (t ++ " = ".data ++ t ++ [' ', op, ' ', '('] ++ e ++ [')'] ++
        (ws4 ++ tok), true) := by
  obtain ⟨c, t', hct⟩ : ∃ c t', t = c :: t' := by
    cases t with
    | nil => exact absurd rfl ht
    | cons c t' => exact ⟨c, t', rfl⟩
  subst hct
  obtain ⟨d, e', hde⟩ : ∃ d e', e = d :: e' := by
    cases e with
    | nil => exact absurd rfl he
    | cons d e' => exact ⟨d, e', rfl⟩
  have hcws : rustWs c = false := htw c (by simp)
  have hcd : ¬ c = '-' := by simpa using hth
  have hdws : rustWs d = false := by
    have := hehead
    rw [hde] at this
    simpa using this
  have hopws : rustWs op = false := by
    simp only [opChar, Bool.or_eq_true, beq_iff_eq] at hop
    rcases hop with (((h | h) | h) | h) | h <;> subst h <;> rfl
  have hsucc : ∀ pv, e.getLast? = some pv →
      group4 pv (ws4 ++ tok) = some (ws4 ++ tok, []) := by
    intro pv hpv
    refine group4_boundary pv ws4 tok hw4 htok ?_
    intro hnil htt
    have hgd : e.getLastD ' ' = pv := by
      rw [List.getLastD_eq_getLast?, hpv]
      rfl
    rw [← hgd]
    exact hbv hnil htt
  have hfail := group4_none_tail e (ws4 ++ tok) hechars helast hterm
  have hlazy : lazy3 [] (e ++ (ws4 ++ tok)) = some (e, ws4 ++ tok, []) := by
    have h := lazy3_cut e (ws4 ++ tok) (ws4 ++ tok) hechars hfail hsucc
      e ⟨0, by simp⟩ he []
    simpa using h
  have hsp : rustWs ' ' = true := by decide
  have hw := takeWhile_append_not (fun x => !rustWs x) t' ' '
    (op :: '=' :: ' ' :: (e ++ (ws4 ++ tok)))
    (fun x hx => by
      have hnx : rustWs x = false := htw x (List.mem_cons_of_mem c hx)
      simp [hnx])
    (by decide)
  have hws2 : (' ' :: op :: '=' :: ' ' :: (e ++ (ws4 ++ tok))).takeWhile
      rustWs = [' '] := by
    simp [List.takeWhile_cons, hopws, hsp]
  have hws2' : (' ' :: op :: '=' :: ' ' :: (e ++ (ws4 ++ tok))).dropWhile
      rustWs = op :: '=' :: ' ' :: (e ++ (ws4 ++ tok)) := by
    simp [List.dropWhile_cons, hopws, hsp]
  have hbw : (' ' :: (e ++ (ws4 ++ tok))).takeWhile rustWs = [' '] := by
    rw [hde]
    simp [List.takeWhile_cons, List.cons_append, hdws, hsp]
  have hbw' : (' ' :: (e ++ (ws4 ++ tok))).dropWhile rustWs =
      e ++ (ws4 ++ tok) := by
    rw [hde]
    simp [List.dropWhile_cons, List.cons_append, hdws, hsp]
  have hbl : bLoop [' '] (e ++ (ws4 ++ tok)) 1 =
      some (e, ws4 ++ tok, [], 1 + e.length + (ws4 ++ tok).length) := by
    simp only [bLoop, List.drop_succ_cons, List.drop_nil, List.nil_append,
      hlazy]
  have htail : tailMatch (' ' :: (e ++ (ws4 ++ tok))) =
      some (e, ws4 ++ tok, [], 1 + e.length + (ws4 ++ tok).length) := by
    simp only [tailMatch, hbw, hbw']
    rw [show ([' '] : List Char).length = 1 from rfl]
    exact hbl
  have hfull : assignFullK (c :: t')
      (' ' :: op :: '=' :: ' ' :: (e ++ (ws4 ++ tok))) =
      some (mkAssign (c :: t') op e (ws4 ++ tok),
        (c :: t').length + 1 + 2 + (1 + e.length + (ws4 ++ tok).length)) := by
    simp only [assignFullK, hws2, hws2', hop, if_true, htail]
    rw [show ([' '] : List Char).length = 1 from rfl]
  have htry : assignTry
      (c :: (t' ++ ' ' :: op :: '=' :: ' ' :: (e ++ (ws4 ++ tok)))) =
      some (mkAssign (c :: t') op e (ws4 ++ tok),
        (c :: t').length + 1 + 2 + (1 + e.length + (ws4 ++ tok).length)) := by
    simp only [assignTry]
    rw [if_neg (by simp [hcws, hcd])]
    simp only [hw.1, hw.2, hfull]
  have hinput : (c :: t') ++ ' ' :: op :: '=' :: ' ' :: (e ++ (ws4 ++ tok)) =
      c :: (t' ++ ' ' :: op :: '=' :: ' ' :: (e ++ (ws4 ++ tok))) := by simp
  rw [hinput]
  refine scanAll_full_match assignTry _ _ (by simp) ?_
  rw [htry]
  simp only [Option.some.injEq, Prod.mk.injEq]
  constructor
  · simp [mkAssign]
  · simp [List.length_append, List.length_cons]
    omega

/-- A no-space occurrence `targetop=expr` (as in `tb.i+=1`), with an
expression free of terminating tokens and of interior operator-`=` pairs,
rewritten with the expression running to the end of the text. -/
theorem assignPass_nospace_eol (t : List Char) (op : Char) (e : List Char)
    (hop : opChar op = true)
    (ht : t ≠ []) (htw : ∀ c ∈ t, rustWs c = false)
    (hth : t.headD ' ' ≠ '-')
    (he : e ≠ [])
    (hechars : ∀ c ∈ e, ¬ c = '\n' ∧ ¬ c = '\r')
    (hehead : rustWs (e.headD ' ') = false)
    (helast : rustWs (e.getLastD ' ') = false)
    (hend : findSub "end".data e = none)
    (helse : findSub "else".data e = none)
    (hsemi : findSub ";".data e = none)
    (hdd : findSub "--".data e = none)
    (hnoe : noOpEq e = true) :
    assignPass (t ++ op :: '=' :: e) =
      (t ++ " = ".data ++ t ++ [' ', op, ' ', '('] ++ e ++ [')'], true) := by
  obtain ⟨c, t', hct⟩ : ∃ c t', t = c :: t' := by
    cases t with
    | nil => exact absurd rfl ht
    | cons c t' => exact ⟨c, t', rfl⟩
  subst hct
  obtain ⟨d, e', hde⟩ : ∃ d e', e = d :: e' := by
    cases e with
    | nil => exact absurd rfl he
    | cons d e' => exact ⟨d, e', rfl⟩
  have hcws : rustWs c = false := htw c (by simp)
  have hcd : ¬ c = '-' := by simpa using hth
  have hdws : rustWs d = false := by
    have := hehead
    rw [hde] at this
    simpa using this
  have hopws : rustWs op = false := by
    simp only [opChar, Bool.or_eq_true, beq_iff_eq] at hop
    rcases hop with (((h | h) | h) | h) | h <;> subst h <;> rfl
  have hlazy : lazy3 [] e = some (e, [], []) :=
    lazy3_to_end e hechars helast hend helse hsemi hdd e ⟨0, by simp⟩ he []
  have hpa : ∀ x ∈ t' ++ [op, '='], (!rustWs x) = true := by
    intro x hx
    rcases List.mem_append.mp hx with h | h
    · have := htw x (List.mem_cons_of_mem c h)
      simp [this]
    · rcases List.mem_cons.mp h with h | h
      · subst h
        simp [hopws]
      · have hx2 : x = '=' := by simpa using h
        subst hx2
        decide
  have hsp2 := takeWhile_append_all (fun x => !rustWs x) (t' ++ [op, '=']) e
    hpa
  have hrest : t' ++ op :: '=' :: e = (t' ++ [op, '=']) ++ e := by simp
  have hw1 : (t' ++ op :: '=' :: e).takeWhile (fun x => !rustWs x) =
      (t' ++ [op, '=']) ++ e.takeWhile (fun x => !rustWs x) := by
    rw [hrest]
    exact hsp2.1
  have hw2 : (t' ++ op :: '=' :: e).dropWhile (fun x => !rustWs x) =
      e.dropWhile (fun x => !rustWs x) := by
    rw [hrest]
    exact hsp2.2
  have hFR : e.takeWhile (fun x => !rustWs x) ++
      e.dropWhile (fun x => !rustWs x) = e :=
    List.takeWhile_append_dropWhile (fun x => !rustWs x) e
  have hfnone : assignFullK
      ((c :: t') ++ op :: '=' :: e.takeWhile (fun x => !rustWs x))
      (e.dropWhile (fun x => !rustWs x)) = none := by
    refine assignFullK_none _ _ ?_
    intro x y tl hxy
    obtain ⟨I, hI⟩ := dropWhile_dropWhile_drop (fun x => !rustWs x) rustWs e
    rw [hI] at hxy
    exact noOpEq_drop e hnoe I x y tl hxy
  have hfail : ∀ k', t'.length + 1 < k' →
      assignAtK ((c :: t') ++ op :: '=' :: e.takeWhile (fun x => !rustWs x))
        (e.dropWhile (fun x => !rustWs x)) k' = none := by
    intro k' hk'
    refine assignAtK_none _ _ _ ?_
    intro x y tl hxy
    have hkd : ((c :: t') ++
        op :: '=' :: e.takeWhile (fun x => !rustWs x)).drop k' =
        (op :: '=' :: e.takeWhile (fun x => !rustWs x)).drop
          (k' - (t'.length + 1)) := by
      have h0 := drop_len_append_add (c :: t')
        (op :: '=' :: e.takeWhile (fun x => !rustWs x)) (k' - (t'.length + 1))
      have hlen : (c :: t').length + (k' - (t'.length + 1)) = k' := by
        simp only [List.length_cons]
        omega
      rw [hlen] at h0
      exact h0
    rw [hkd] at hxy
    rcases Nat.exists_eq_add_of_le (show 1 ≤ k' - (t'.length + 1) by omega)
      with ⟨m, hm⟩
    rw [hm] at hxy
    cases m with
    | zero =>
      simp only [Nat.add_zero, List.drop_succ_cons, List.drop_zero] at hxy
      injection hxy with h1 h2
      rw [← h1]
      simp [show opChar '=' = false from by decide]
    | succ m =>
      have h2 : (op :: '=' :: e.takeWhile (fun x => !rustWs x)).drop
          (1 + (m + 1)) = (e.takeWhile (fun x => !rustWs x)).drop m := by
        rw [show 1 + (m + 1) = m + 1 + 1 by omega, List.drop_succ_cons,
          List.drop_succ_cons]
      rw [h2] at hxy
      have hmlt : m ≤ (e.takeWhile (fun x => !rustWs x)).length := by
        by_contra hgt
        push_neg at hgt
        have hz : (e.takeWhile (fun x => !rustWs x)).drop m = [] :=
          List.drop_eq_nil_iff.mpr (by omega)
        rw [hz] at hxy
        cases hxy
      have he2 : e.drop m =
          x :: y :: (tl ++ e.dropWhile (fun x => !rustWs x)) := by
        conv_lhs => rw [← hFR]
        rw [List.drop_append_of_le_length hmlt, hxy]
        simp
      exact noOpEq_drop e hnoe m x y _ he2
  have hbw0 : e.takeWhile rustWs = [] := by
    rw [hde]
    simp [List.takeWhile_cons, hdws]
  have hbw0' : e.dropWhile rustWs = e := by
    rw [hde]
    simp [List.dropWhile_cons, hdws]
  have htail : tailMatch e = some (e, [], [], e.length) := by
    simp only [tailMatch, hbw0, hbw0', List.length_nil, bLoop,
      List.nil_append, hlazy, Nat.add_zero]
  have hAt : assignAtK
      ((c :: t') ++ op :: '=' :: e.takeWhile (fun x => !rustWs x))
      (e.dropWhile (fun x => !rustWs x)) (t'.length + 1) =
      some (mkAssign (c :: t') op e [], t'.length + 1 + 2 + e.length) := by
    have hkd : ((c :: t') ++
        op :: '=' :: e.takeWhile (fun x => !rustWs x)).drop (t'.length + 1) =
        op :: '=' :: e.takeWhile (fun x => !rustWs x) := by
      have h0 := drop_len_append (c :: t')
        (op :: '=' :: e.takeWhile (fun x => !rustWs x))
      simp only [List.length_cons] at h0
      exact h0
    have htk : ((c :: t') ++
        op :: '=' :: e.takeWhile (fun x => !rustWs x)).take (t'.length + 1) =
        c :: t' := by
      have h0 := take_len_append (c :: t')
        (op :: '=' :: e.takeWhile (fun x => !rustWs x))
      simp only [List.length_cons] at h0
      exact h0
    simp only [assignAtK, hkd, hop, if_true]
    rw [hFR, htail, htk]
  have hback : assignBack
      ((c :: t') ++ op :: '=' :: e.takeWhile (fun x => !rustWs x))
      (e.dropWhile (fun x => !rustWs x))
      (((c :: t') ++
        op :: '=' :: e.takeWhile (fun x => !rustWs x)).length - 1) =
      some (mkAssign (c :: t') op e [], t'.length + 1 + 2 + e.length) := by
    have hwlen : ((c :: t') ++
        op :: '=' :: e.takeWhile (fun x => !rustWs x)).length =
        t'.length + 3 + (e.takeWhile (fun x => !rustWs x)).length := by
      simp [List.length_append, List.length_cons]
      omega
    rw [assignBack_descend _ _ (t'.length + 1) hfail _ (by rw [hwlen]; omega)]
    simp only [assignBack]
    rw [hAt]
  have hweq : c :: ((t' ++ [op, '=']) ++ e.takeWhile (fun x => !rustWs x)) =
      (c :: t') ++ op :: '=' :: e.takeWhile (fun x => !rustWs x) := by
    simp
  have htry : assignTry (c :: (t' ++ op :: '=' :: e)) =
      some (mkAssign (c :: t') op e [], t'.length + 1 + 2 + e.length) := by
    simp only [assignTry]
    rw [if_neg (by simp [hcws, hcd])]
    simp only [hw1, hw2]
    rw [hweq, hfnone, hback]
  have hinput : (c :: t') ++ op :: '=' :: e =
      c :: (t' ++ op :: '=' :: e) := by simp
  rw [hinput]
  refine scanAll_full_match assignTry _ _ (by simp) ?_
  rw [htry]
  simp only [Option.some.injEq, Prod.mk.injEq]
  constructor
  · simp [mkAssign]
  · simp [List.length_append, List.length_cons]
    omega

set_option maxRecDepth 200000 in
/--
Claim C2: an occurrence `target op= expr` (op among `+ - * / %`) is
rewritten to `target = target op (expr)`, the expression extending up to
but not including the first terminating token — the keyword `end`, the
keyword `else`, a semicolon, a `--` comment marker, or the end of the
line.  Part 1: the terminator is a (possibly whitespace-preceded) `end`,
`else`, `;` or `--` at the end of the text, and the expression before it
contains no terminator.  Part 2: the expression runs to the end of the
text (the end-of-line terminator), with spaces around `op=`.  Part 3:
the same with `op=` glued directly between target and expression, as in
`tb.i+=1`.  Parts 4 and 5: the repository's own examples, the `--` and
`;`/`end` terminators inside full lines.
-/
theorem claim_C2_compound_assignment :
    (∀ (t : List Char) (op : Char) (e ws4 tok : List Char),
      opChar op = true →
      t ≠ [] → (∀ c ∈ t, rustWs c = false) → t.headD ' ' ≠ '-' →
      e ≠ [] → (∀ c ∈ e, ¬ c = '\n' ∧ ¬ c = '\r') →
      rustWs (e.headD ' ') = false → rustWs (e.getLastD ' ') = false →
      (∀ c ∈ ws4, rustWs c = true) →
      (tok = "end".data ∨ tok = "else".data ∨ tok = ";".data ∨
        tok = "--".data) →
      (ws4 = [] → (tok = "end".data ∨ tok = "else".data) →
        wordChar (e.getLastD ' ') = false) →
      noTermAt e (ws4 ++ tok) = true →
      assignPass (t ++ ' ' :: op :: '=' :: ' ' :: (e ++ (ws4 ++ tok))) =
        (t ++ " = ".data ++ t ++ [' ', op, ' ', '('] ++ e ++ [')'] ++
          (ws4 ++ tok), true)) ∧
    (∀ (t : List Char) (op : Char) (e : List Char),
      opChar op = true →
      t ≠ [] → (∀ c ∈ t, rustWs c = false) → t.headD ' ' ≠ '-' →
      e ≠ [] → (∀ c ∈ e, ¬ c = '\n' ∧ ¬ c = '\r') →
      rustWs (e.headD ' ') = false → rustWs (e.getLastD ' ') = false →
      findSub "end".data e = none → findSub "else".data e = none →
      findSub ";".data e = none → findSub "--".data e = none →
      assignPass (t ++ ' ' :: op :: '=' :: ' ' :: e) =
        (t ++ " = ".data ++ t ++ [' ', op, ' ', '('] ++ e ++ [')'], true)) ∧
    (∀ (t : List Char) (op : Char) (e : List Char),
      opChar op = true →
      t ≠ [] → (∀ c ∈ t, rustWs c = false) → t.headD ' ' ≠ '-' →
      e ≠ [] → (∀ c ∈ e, ¬ c = '\n' ∧ ¬ c = '\r') →
      rustWs (e.headD ' ') = false → rustWs (e.getLastD ' ') = false →
      findSub "end".data e = none → findSub "else".data e = none →
      findSub ";".data e = none → findSub "--".data e = none →
      noOpEq e = true →
      assignPass (t ++ op :: '=' :: e) =
        (t ++ " = ".data ++ t ++ [' ', op, ' ', '('] ++ e ++ [')'], true)) ∧
    assignPass
        "tb.i+=1 -- increase the index, to display the next message on tb.str".data =
      ("tb.i = tb.i + (1) -- increase the index, to display the next message on tb.str".data,
        true) ∧
    assignPass "if btnp(3) then self.choice += 1; result = true end".data =
      ("if btnp(3) then self.choice = self.choice + (1); result = true end".data,
        true) := by
  refine ⟨?_, ?_, ?_, ?_, ?_⟩
  · intro t op e ws4 tok hop ht htw hth he hechars hehead helast hw4 htok
      hbv hterm
    exact assignPass_spaced_term t op e ws4 tok hop ht htw hth he hechars
      hehead helast hw4 htok hbv hterm
  · intro t op e hop ht htw hth he hechars hehead helast hend helse hsemi hdd
    exact assignPass_spaced_eol t op e hop ht htw hth he hechars hehead
      helast hend helse hsemi hdd
  · intro t op e hop ht htw hth he hechars hehead helast hend helse hsemi hdd
      hnoe
    exact assignPass_nospace_eol t op e hop ht htw hth he hechars hehead
      helast hend helse hsemi hdd hnoe
  · rfl
  · rfl

/--
Claim C2 witness: `self.choice += 1;` is rewritten to
`self.choice = self.choice + (1);` (the `;` terminator cuts the
expression), and the glued `tb.i+=1` is rewritten to `tb.i = tb.i + (1)`.
-/
theorem claim_C2_witness :
    assignPass ("self.choice".data ++ ' ' :: '+' :: '=' :: ' ' ::
        ("1".data ++ ([] ++ ";".data))) =
      ("self.choice".data ++ " = ".data ++ "self.choice".data ++
        [' ', '+', ' ', '('] ++ "1".data ++ [')'] ++ ([] ++ ";".data),
        true) ∧
    assignPass ("tb.i".data ++ '+' :: '=' :: "1".data) =
      ("tb.i".data ++ " = ".data ++ "tb.i".data ++ [' ', '+', ' ', '('] ++
        "1".data ++ [')'], true) :=
  ⟨claim_C2_compound_assignment.1 "self.choice".data '+' "1".data []
      ";".data (by decide) (by decide) (by decide) (by decide) (by decide)
      (by decide) (by decide) (by decide) (by decide) (by decide)
      (by decide) (by decide),
    claim_C2_compound_assignment.2.2.1 "tb.i".data '+' "1".data (by decide)
      (by decide) (by decide) (by decide) (by decide) (by decide)
      (by decide) (by decide) (by decide) (by decide) (by decide)
      (by decide) (by decide)⟩

end Pico8
